import Mathlib

/-
Verification of the Signal Atlas content pipeline core
(`signal_atlas/policy.py`, `rank.py`, `state.py`, `pipeline.py`, `utils.py`).

The Python code is shallowly embedded: machine floats that the source
immediately rounds to a fixed number of decimals are modelled as exact
rationals together with Python's round-half-to-even; Python dicts keyed by
strings are modelled either as insertion-ordered association lists (when
iteration order matters) or as total functions with default 0 (for counter
maps); Python sets of strings are modelled as duplicate-free lists, used only
through membership.  Cryptographic hashing (`utils.dedupe_hash`, a truncated
SHA-1) and the near-duplicate detector (`rank._is_near_duplicate`, which uses
Python's per-process randomized `hash` builtin for trigram buckets) are kept
as explicit function parameters: every theorem below is proved for all
instantiations of them, hence in particular for the concrete ones.
-/

namespace SignalAtlas

/-! ## Python rounding (`round(x, k)` is round-half-to-even) -/

/-- Floor of a rational, computed from its normalized fraction
(`q.num / q.den` with Euclidean integer division, which is floor division
for a positive denominator). -/
def ratFloor (q : ℚ) : ℤ := q.num / (q.den : ℤ)

/-- Python's banker rounding of a rational to the nearest integer,
ties going to the even neighbour. -/
def roundHalfEven (x : ℚ) : ℤ :=
  let n := ratFloor x
  let f := x - (n : ℚ)
  if f < 1/2 then n
  else if 1/2 < f then n + 1
  else if n % 2 = 0 then n else n + 1

/-- Python's `round(x, k)`: banker rounding at the k-th decimal place. -/
def roundTo (k : ℕ) (x : ℚ) : ℚ :=
  ((roundHalfEven (x * (10 : ℚ) ^ k) : ℚ)) / (10 : ℚ) ^ k

/-! ## `utils.py` string helpers

`normalize_text` lower-cases, replaces every character outside
`[a-z0-9\s]` by a space, collapses whitespace runs to single spaces and
strips; `dedupe_hash` then SHA-1-hashes the result (kept as a parameter).
ASCII scope: Python's `str.lower`/`str.isupper`/`\s` are used by this
repository on ASCII content, and are embedded with their ASCII meaning. -/

/-- Characters matched by Python's `\s` (ASCII scope). -/
def pyWhitespace : List Char := [' ', '\t', '\n', '\r', '\x0b', '\x0c']

/-- Whether a character is Python whitespace. -/
def pyIsSpace (c : Char) : Bool := pyWhitespace.contains c

/-- Whether a character is in `[a-z0-9]`. -/
def isLowerDigit (c : Char) : Bool :=
  (decide (97 ≤ c.toNat) && decide (c.toNat ≤ 122)) ||
  (decide (48 ≤ c.toNat) && decide (c.toNat ≤ 57))

/-- Collapse runs of Python whitespace to a single space
(the `re.sub(r"\s+", " ", ...)` step); the Boolean argument records
whether the previous character was whitespace. -/
def collapseWsAux : Bool → List Char → List Char
  | _, [] => []
  | prevWs, c :: rest =>
    if pyIsSpace c then
      if prevWs then collapseWsAux true rest
      else ' ' :: collapseWsAux true rest
    else c :: collapseWsAux false rest

/-- Strip leading and trailing Python whitespace from a character list
(Python `str.strip()`). -/
def pyStripChars (cs : List Char) : List Char :=
  (((cs.dropWhile pyIsSpace).reverse).dropWhile pyIsSpace).reverse

/-- Python `str.strip()`. -/
def pyStrip (s : String) : String := String.mk (pyStripChars s.toList)

/-- Embedding of `utils.normalize_text`. -/
def normalize_text (s : String) : String :=
  String.mk (pyStripChars (collapseWsAux false
    ((s.toList.map Char.toLower).map
      (fun c => if isLowerDigit c || pyIsSpace c then c else ' '))))

/-- Python `str.split()` with no separator: split on whitespace runs,
dropping empty pieces; the accumulator holds the current word reversed. -/
def pySplitWsAux : List Char → List Char → List (List Char)
  | [], acc => if acc.isEmpty then [] else [acc.reverse]
  | c :: rest, acc =>
    if pyIsSpace c then
      if acc.isEmpty then pySplitWsAux rest []
      else acc.reverse :: pySplitWsAux rest []
    else pySplitWsAux rest (c :: acc)

/-- Python `str.split()` on a string. -/
def pySplitWs (s : String) : List (List Char) := pySplitWsAux s.toList []

/-- Python `str.isupper()` (ASCII scope): at least one cased character and
no lowercase cased character. -/
def pyIsUpper (s : String) : Bool :=
  s.toList.any (fun c => c.isAlpha) && s.toList.all (fun c => !c.isAlpha || c.isUpper)

/-- Python's substring containment `needle in hay`. -/
def containsSub (needle hay : String) : Bool :=
  hay.toList.tails.any (fun t => needle.toList.isPrefixOf t)

/-! ## `models.py` data contracts (the fields the core reads) -/

/-- Embedding of `models.TopicCandidate` (the `source_meta` field is never
read by the verified core and is omitted). -/
structure TopicCandidate where
  id : String
  vertical : String
  title : String
  sourceUrls : List String
  discoveredAt : String
  category : String := "general"
  snippet : String := ""
deriving DecidableEq

/-- Embedding of `models.PolicyResult`; the float score is exact here
because the source rounds it to 4 decimals. -/
structure PolicyResult where
  score : ℚ
  flags : List String
  blocked : Bool
deriving DecidableEq

/-! ## `policy.py` -/

/-- Embedding of `policy._EXAGGERATION_PATTERNS`. -/
def exaggerationPatterns : List String :=
  ["guaranteed", "shocking", "you won\x27t believe", "100%", "secret trick", "instant"]

/-- Embedding of `policy._FINANCE_ADVICE_PATTERNS`. -/
def financeAdvicePatterns : List String :=
  ["buy now", "sell now", "guaranteed return", "financial advice",
   "invest now", "double your money", "risk free"]

/-- Embedding of `constants.VERTICAL_FINANCE`. -/
def VERTICAL_FINANCE : String := "finance"

/-- The normalized `f"{norm_title} {norm_snippet}".strip()` corpus built
inside `policy.evaluate_policy`. -/
def mergedText (topic : TopicCandidate) : String :=
  pyStrip (normalize_text topic.title ++ " " ++ normalize_text topic.snippet)

/-- The flag-collection part of `policy.evaluate_policy` (the five checks,
in source order, each appending its label). -/
def policyFlagsOf (topic : TopicCandidate) : List String :=
  let normTitle := normalize_text topic.title
  let merged := mergedText topic
  let flags1 : List String :=
    if topic.sourceUrls = [] then ["missing_source"] else []
  let flags2 :=
    if (pySplitWs normTitle).length < 4 then flags1 ++ ["low_substance_title"] else flags1
  let flags3 :=
    if pyIsUpper (pyStrip topic.title) && decide (15 < (pyStrip topic.title).length)
    then flags2 ++ ["shouting_title"] else flags2
  let flags4 :=
    if exaggerationPatterns.any (fun p => containsSub p merged)
    then flags3 ++ ["exaggerated_claim"] else flags3
  if topic.vertical = VERTICAL_FINANCE ∧
      financeAdvicePatterns.any (fun p => containsSub p merged) = true
  then flags4 ++ ["finance_investment_advice"] else flags4

/-- The `blocked = any(flag in {...})` computation of
`policy.evaluate_policy`. -/
def policyBlockedOf (topic : TopicCandidate) : Bool :=
  (policyFlagsOf topic).any
    (fun f => f == "missing_source" || f == "finance_investment_advice")

/-- Embedding of `policy.evaluate_policy`: the flags, the blocked bit, and
the clamped rounded score. -/
def evaluate_policy (topic : TopicCandidate) : PolicyResult :=
  let flags := policyFlagsOf topic
  let blocked := policyBlockedOf topic
  let score0 : ℚ := 1 - (12/100) * flags.length - (if blocked then (2 : ℚ)/5 else 0)
  { score := max 0 (min 1 (roundTo 4 score0)), flags := flags, blocked := blocked }

/-! ## `taxonomy.py` -/

/-- Embedding of `taxonomy._RULES` (category, keyword list), in source order. -/
def taxonomyRules : List (String × List String) :=
  [("stocks", ["stock", "stocks", "share price", "shares", "nasdaq", "nyse",
      "s&p", "dow jones", "earnings", "ipo", "etf", "market rally"]),
   ("healthcare", ["health", "healthcare", "medical", "hospital", "biotech",
      "pharma", "drug", "fda", "clinical trial", "patient", "diagnosis"]),
   ("ai", ["ai", "artificial intelligence", "llm", "model", "gpt", "openai",
      "anthropic", "machine learning", "copilot", "inference", "agent"]),
   ("tech", ["technology", "software", "cloud", "semiconductor", "chip",
      "developer", "api", "operating system", "smartphone",
      "streaming service", "social media"]),
   ("startup", ["startup", "funding", "seed", "series a", "series b",
      "series c", "venture capital", "unicorn", "founder"]),
   ("finance", ["finance", "fintech", "payment", "bank", "credit",
      "inflation", "interest rate", "federal reserve", "economy",
      "monetary policy", "budget"])]

/-- Embedding of `constants.CATEGORIES_BY_VERTICAL`: every known vertical is
mapped to the same full category tuple; unknown verticals fall back to
`(DEFAULT_CATEGORY,)`. -/
def categoriesByVertical (vertical : String) : List String :=
  if vertical = "ai_tech" ∨ vertical = "finance" ∨ vertical = "lifestyle_pop"
  then ["ai", "tech", "finance", "healthcare", "stocks", "startup", "general"]
  else ["general"]

/-- The first-matching-rule scan inside `taxonomy.classify_category`. -/
def classifyScan (allowed : List String) (corpus : String) :
    List (String × List String) → String
  | [] => "general"
  | (category, keywords) :: rest =>
    if !(allowed.contains category) then classifyScan allowed corpus rest
    else if keywords.any (fun k => containsSub k corpus) then category
    else classifyScan allowed corpus rest

/-- Embedding of `taxonomy.classify_category`. -/
def classify_category (vertical title snippet : String) : String :=
  classifyScan (categoriesByVertical vertical)
    (normalize_text (title ++ " " ++ snippet)) taxonomyRules

/-! ## `rank.py` -/

/-- Embedding of `models.ApprovedTopic` (without the unread `source_meta`). -/
structure ApprovedTopic where
  id : String
  vertical : String
  title : String
  sourceUrls : List String
  discoveredAt : String
  confidenceScore : ℚ
  policyScore : ℚ
  dedupeHash : String
  category : String := "general"
  policyFlags : List String := []
  snippet : String := ""
deriving DecidableEq

/-- Embedding of `rank.ApprovalStats`. -/
structure ApprovalStats where
  candidateCount : ℕ
  duplicateCount : ℕ
  policyFlagCount : ℕ
  blockedCount : ℕ
deriving DecidableEq

/-- A persisted history row as consumed by `approve_topics`
(the reduced `title` + `dedupe_hash` + `category` projection). -/
structure HistoryRow where
  title : String
  dedupeHash : String
  category : String := "general"
deriving DecidableEq

/-- Embedding of `rank._confidence_score`. -/
def confidence_score (topic : TopicCandidate) (policy : PolicyResult) : ℚ :=
  let srcBonus : ℚ := min (3/10) ((1/10) * topic.sourceUrls.length)
  let snippetBonus : ℚ := if 40 ≤ (pyStrip topic.snippet).length then 1/10 else 0
  let raw := 45/100 + srcBonus + snippetBonus + policy.score * (15/100)
  roundTo 4 (max 0 (min 1 raw))

/-- The mutable loop state of `rank.approve_topics`: the accumulated
approvals, the growing title list and hash set (the Python set is modelled
as a list used through membership), the three counters, and whether the
`break` was taken. -/
structure RankState where
  approved : List ApprovedTopic
  histTitles : List String
  histHashes : List String
  dupCount : ℕ
  flagCount : ℕ
  blockedCount : ℕ
  halted : Bool
deriving DecidableEq

section Rank

variable (dedupe_hash : String → String)
variable (is_near_duplicate : String → String → Bool)
variable (policy_eval : TopicCandidate → PolicyResult)
variable (max_count : ℤ)

/-- One iteration of the `for candidate in candidate_list` loop body of
`rank.approve_topics` (`dedupe_hash` and `_is_near_duplicate` are the
function parameters described in the header). -/
def approveStep (s : RankState) (c : TopicCandidate) : RankState :=
  let d := dedupe_hash c.title
  let dupHit :=
    if s.histHashes.contains d then true
    else (s.histTitles.drop (s.histTitles.length - 220)).any
      (fun old => is_near_duplicate c.title old)
  if dupHit then { s with dupCount := s.dupCount + 1 }
  else
    let policy := policy_eval c
    let s1 := if policy.flags ≠ [] then { s with flagCount := s.flagCount + 1 } else s
    if policy.blocked then { s1 with blockedCount := s1.blockedCount + 1 }
    else
      let conf := confidence_score c policy
      let category := classify_category c.vertical c.title c.snippet
      let topic : ApprovedTopic :=
        { id := c.id, vertical := c.vertical, title := c.title,
          sourceUrls := c.sourceUrls, discoveredAt := c.discoveredAt,
          confidenceScore := conf, policyScore := policy.score,
          dedupeHash := d, category := category,
          policyFlags := policy.flags, snippet := c.snippet }
      let s2 := { s1 with
        approved := s1.approved ++ [topic],
        histTitles := s1.histTitles ++ [c.title],
        histHashes := s1.histHashes ++ [d] }
      if max_count ≤ (s2.approved.length : ℤ) then { s2 with halted := true } else s2

/-- The loop of `rank.approve_topics`; once the `break` flag is set the
remaining candidates are left unprocessed. -/
def approveGo : List TopicCandidate → RankState → RankState
  | [], s => s
  | c :: rest, s => if s.halted then s else approveGo rest (approveStep dedupe_hash is_near_duplicate policy_eval max_count s c)

/-- The initial loop state of `rank.approve_topics` built from the history
rows (truthiness of Python strings is non-emptiness). -/
def initRankState (history : List HistoryRow) : RankState :=
  { approved := [],
    histTitles := (history.filter (fun r => r.title ≠ "")).map (fun r => r.title),
    histHashes := (history.filter (fun r => r.dedupeHash ≠ "")).map (fun r => r.dedupeHash),
    dupCount := 0, flagCount := 0, blockedCount := 0, halted := false }

/-- Embedding of `rank.approve_topics`. -/
def approve_topics (candidates : List TopicCandidate) (history : List HistoryRow) :
    List ApprovedTopic × ApprovalStats :=
  let s := approveGo dedupe_hash is_near_duplicate policy_eval max_count candidates
    (initRankState history)
  (s.approved,
   { candidateCount := candidates.length, duplicateCount := s.dupCount,
     policyFlagCount := s.flagCount, blockedCount := s.blockedCount })

end Rank

/-! ## `state.py` -/

/-- A `daily_history` entry as written by `Pipeline.run` and read by
`maybe_scale_publish_limit` (rates exact since the metrics module rounds
them to fixed decimals). -/
structure DailyEntry where
  date : String
  duplicateRate : ℚ
  policyFlagRate : ℚ
  indexedRate : ℚ
  rpmEstimate : ℚ := 0
  publishCount : ℤ := 0
deriving DecidableEq

/-- Embedding of `constants.MAX_DAILY_HISTORY`. -/
def MAX_DAILY_HISTORY : ℕ := 120

/-- Embedding of `constants.MAX_PUBLISHED_HISTORY`. -/
def MAX_PUBLISHED_HISTORY : ℕ := 500

/-- Embedding of `constants.DEFAULT_PUBLISH_LIMIT`. -/
def DEFAULT_PUBLISH_LIMIT : ℤ := 12

/-- Embedding of `constants.PUBLISH_STAGES`. -/
def PUBLISH_STAGES : List ℤ := [12, 18, 24]

/-- The `rows[-N:]` truncation used by `upsert_daily_history`
(`if len(rows) > N: rows[:] = rows[-N:]`). -/
def truncLast (maxLen : ℕ) (rows : List DailyEntry) : List DailyEntry :=
  if maxLen < rows.length then rows.drop (rows.length - maxLen) else rows

/-- Embedding of `state.upsert_daily_history` acting on the
`daily_history` list: replace the trailing entry when its date matches,
else append; then truncate to the last `MAX_DAILY_HISTORY` entries. -/
def upsert_daily_history (rows : List DailyEntry) (entry : DailyEntry) :
    List DailyEntry :=
  let rows2 :=
    match rows.getLast? with
    | some last => if last.date = entry.date then rows.dropLast ++ [entry] else rows ++ [entry]
    | none => rows ++ [entry]
  truncLast MAX_DAILY_HISTORY rows2

/-- Whether one daily row passes all three `SCALE_RULES` thresholds
(the source returns `None` as soon as one row violates one of them). -/
def dayPasses (row : DailyEntry) : Bool :=
  decide (row.duplicateRate < 5/100) && decide (row.policyFlagRate < 1/100) &&
    decide (35/100 ≤ row.indexedRate)

/-- The `for stage in PUBLISH_STAGES` scan: first stage strictly greater
than `current`, else `current` itself. -/
def nextStage (current : ℤ) : List ℤ → ℤ
  | [] => current
  | stage :: rest => if current < stage then stage else nextStage current rest

/-- Embedding of `state.maybe_scale_publish_limit`: takes the persisted
`publish_limit` and `daily_history`, returns the promotion signal and the
resulting `publish_limit` (`int(state.get("publish_limit") or 12)` makes a
falsy stored `0` read as `12`). -/
def maybe_scale_publish_limit (publishLimit : ℤ) (history : List DailyEntry) :
    Option ℤ × ℤ :=
  let current := if publishLimit = 0 then DEFAULT_PUBLISH_LIMIT else publishLimit
  if 24 ≤ current then (none, publishLimit)
  else if history.length < 7 then (none, publishLimit)
  else
    let window := history.drop (history.length - 7)
    if window.all dayPasses then
      let next := nextStage current PUBLISH_STAGES
      if next ≠ current then (some next, next) else (none, publishLimit)
    else (none, publishLimit)

/-! ## `pipeline.py`: published-history merge -/

/-- A persisted `published` row restricted to the fields
`_merge_published_rows` reads or rewrites (`path`, `legacy_paths`,
`published_at`) plus representative carried-along payload fields
(`slug`, `title`, `vertical`), which the merge copies verbatim. -/
structure PubRow where
  slug : String
  title : String
  vertical : String
  publishedAt : String
  path : String
  legacyPaths : List String := []
deriving DecidableEq

/-- The legacy-path dedup loop of `Pipeline._merge_published_rows`:
keep each stripped non-empty item once, skipping the current path. -/
def dedupLegacy (path : String) : List String → List String → List String
  | [], acc => acc
  | item :: rest, acc =>
    let one := pyStrip item
    if one ≠ "" ∧ ¬ (acc.contains one) ∧ one ≠ path
    then dedupLegacy path rest (acc ++ [one])
    else dedupLegacy path rest acc

/-- Lookup in an insertion-ordered association list (a Python dict). -/
def findRow : List (String × PubRow) → String → Option PubRow
  | [], _ => none
  | (k, v) :: rest, p => if k = p then some v else findRow rest p

/-- Python dict assignment `merged[path] = row`: overwrite in place when the
key exists (keeping its position), else append at the end. -/
def upsertKeep : List (String × PubRow) → String → PubRow → List (String × PubRow)
  | [], k, v => [(k, v)]
  | (k0, v0) :: rest, k, v =>
    if k0 = k then (k0, v) :: rest else (k0, v0) :: upsertKeep rest k v

/-- One step of phase 1 of `Pipeline._merge_published_rows`: key an
existing row by its path (`dict(row)` copy), skipping a falsy path. -/
def loadStep (m : List (String × PubRow)) (r : PubRow) : List (String × PubRow) :=
  if r.path = "" then m else upsertKeep m r.path r

/-- Phase 1 of `Pipeline._merge_published_rows`: load the existing rows
keyed by path, skipping rows with a falsy path. -/
def loadExisting (rows : List PubRow) : List (String × PubRow) :=
  rows.foldl loadStep []

/-- One step of phase 2 of `Pipeline._merge_published_rows`: a new row
overwrites at its path, its legacy list first extended with the prior
row's legacy list and deduplicated (excluding the current path). -/
def mergeNewRow (m : List (String × PubRow)) (r : PubRow) : List (String × PubRow) :=
  if r.path = "" then m
  else
    let priorLegacy := ((findRow m r.path).map (fun p => p.legacyPaths)).getD []
    upsertKeep m r.path
      { r with legacyPaths := dedupLegacy r.path (priorLegacy ++ r.legacyPaths) [] }

/-- Embedding of `Pipeline._merge_published_rows`: merge by path, then sort
by `published_at` descending (Python's stable `sort` with `reverse=True`). -/
def merge_published_rows (existingRows newRows : List PubRow) : List PubRow :=
  let m := newRows.foldl mergeNewRow (loadExisting existingRows)
  (m.map (fun p => p.2)).mergeSort (fun a b => b.publishedAt ≤ a.publishedAt)

/-- Embedding of `state.trim_published_history` on the row list. -/
def trim_published_history (rows : List PubRow) : List PubRow :=
  if MAX_PUBLISHED_HISTORY < rows.length then rows.drop (rows.length - MAX_PUBLISHED_HISTORY)
  else rows

/-! ## `pipeline.py`: quota allocation and the effective publish limit -/

/-- The `for idx, one_vertical in enumerate(verticals)` loop of
`Pipeline._allocate_quota`: index `idx` receives `base + 1` when
`idx < remainder`. -/
def quotaLoop (base remainder : ℤ) : List String → ℕ → List (String × ℤ)
  | [], _ => []
  | v :: rest, idx =>
    (v, base + if (idx : ℤ) < remainder then 1 else 0) :: quotaLoop base remainder rest (idx + 1)

/-- Embedding of `Pipeline._allocate_quota` (the result dict is modelled as
an association list in insertion order; `run` only calls it with distinct
vertical names).  Python's `//` and `%` are floor division and modulo,
embedded as `Int.fdiv` and `Int.fmod`. -/
def allocate_quota (verticals : List String) (publishLimit : ℤ) : List (String × ℤ) :=
  match verticals with
  | [] => []
  | [v] => [(v, max 1 publishLimit)]
  | vs =>
    let total := max (vs.length : ℤ) publishLimit
    let base := total.fdiv (vs.length : ℤ)
    let remainder := total.fmod (vs.length : ℤ)
    quotaLoop base remainder vs 0

/-- The `publish_limit = int(max_publish or state.get("publish_limit") or
DEFAULT_PUBLISH_LIMIT)` expression of `Pipeline.run` (line 91): Python `or`
falls through on `None` and on the falsy integer `0`. -/
def effectivePublishLimit (maxPublish : Option ℤ) (statePublishLimit : ℤ) : ℤ :=
  let fromState := if statePublishLimit = 0 then DEFAULT_PUBLISH_LIMIT else statePublishLimit
  match maxPublish with
  | none => fromState
  | some m => if m = 0 then fromState else m

/-! ## `pipeline.py`: budget-aware generation mode -/

/-- Embedding of `pipeline.PREMIUM_EST_KRW`. -/
def PREMIUM_EST_KRW : ℚ := 220

/-- Embedding of `pipeline.BALANCED_EST_KRW`. -/
def BALANCED_EST_KRW : ℚ := 120

/-- The alert threshold 0.85 (`pipeline.BUDGET_ALERT_RATIO`): the fraction
of the monthly limit past which the selector downgrades premium quality. -/
def budgetAlertRate : ℚ := 85/100

/-- The monthly budget ledger kept in state (the fields
`_choose_generation_mode` and `_apply_generation_cost_to_budget` touch). -/
structure Budget where
  month : String := ""
  spentKrw : ℚ
  limitKrw : ℚ
  lastEngine : String := "gemini"
  lastQualityTier : String := "premium"
deriving DecidableEq

/-- Embedding of `Pipeline._choose_generation_mode`: returns the effective
`(engine, quality_tier)` pair together with the mutated budget
(`last_engine` / `last_quality_tier` bookkeeping). -/
def choose_generation_mode (requestedEngine requestedQuality : String)
    (budget : Budget) : (String × String) × Budget :=
  if requestedEngine = "template" then
    (("template", "balanced"),
     { budget with lastEngine := "template", lastQualityTier := "balanced" })
  else
    let spent := budget.spentKrw
    let limitKrw := max 1 budget.limitKrw
    let remaining := limitKrw - spent
    let quality := requestedQuality
    if remaining ≤ 0 then
      (("template", "balanced"),
       { budget with lastEngine := "template", lastQualityTier := "balanced" })
    else
      let quality :=
        if limitKrw * budgetAlertRate ≤ spent ∧ quality = "premium"
        then "balanced" else quality
      let estCost := if quality = "premium" then PREMIUM_EST_KRW else BALANCED_EST_KRW
      if remaining < estCost then
        if quality = "premium" ∧ BALANCED_EST_KRW ≤ remaining then
          (("gemini", "balanced"),
           { budget with lastEngine := "gemini", lastQualityTier := "balanced" })
        else if remaining < BALANCED_EST_KRW then
          (("template", "balanced"),
           { budget with lastEngine := "template", lastQualityTier := "balanced" })
        else
          (("gemini", quality),
           { budget with lastEngine := "gemini", lastQualityTier := quality })
      else
        (("gemini", quality),
         { budget with lastEngine := "gemini", lastQualityTier := quality })

/-- Python `s.startswith(pre)`. -/
def pyStartsWith (s pre : String) : Bool := pre.toList.isPrefixOf s.toList

/-- Embedding of `Pipeline._apply_generation_cost_to_budget`: book the
payload's reported cost (clamped at 0, added with 2-decimal rounding) only
when the payload engine starts with "gemini". -/
def apply_generation_cost_to_budget (budget : Budget)
    (payloadEngine : String) (payloadCost : ℚ) : Budget :=
  if ¬ (pyStartsWith payloadEngine "gemini" = true) then budget
  else
    let cost := max 0 payloadCost
    { budget with spentKrw := roundTo 2 (budget.spentKrw + cost) }

/-- Fold booking a run's sequence of generation payloads into the budget. -/
def applyCosts (budget : Budget) (payloads : List (String × ℚ)) : Budget :=
  payloads.foldl (fun b p => apply_generation_cost_to_budget b p.1 p.2) budget

/-! ## `pipeline.py`: the production deploy phase of `Pipeline.run`
(lines 171-208) -/

/-- Embedding of `constants.DEPLOY_FAILURE_DISABLE_COUNT`. -/
def DEPLOY_FAILURE_DISABLE_COUNT : ℤ := 3

/-- A generated brief as consumed by the deploy phase, which only reads
`one.topic.vertical` (via `_count_generated_by_vertical`). -/
structure GenBrief where
  vertical : String
deriving DecidableEq

/-- The slice of the persisted state the deploy phase mutates:
the `published` history, the `vertical_deploy_failures` counter map (a dict
read through `.get(v, 0)`, modelled as a total function), and the working
`disabled` set (modelled as a duplicate-free list). -/
structure DeployState where
  published : List PubRow
  failures : String → ℤ
  disabled : List String

/-- The outcome of the deploy phase: the mutated state slice plus the
reported `deploy_attempts` and `deploy_error`. -/
structure DeployOutcome where
  state : DeployState
  deployAttempts : ℕ
  deployError : String
  publishedRows : List PubRow

/-- The `for attempt in range(1, 4)` retry loop: each element of `attempts`
is what `publisher.publish` does on that attempt (a raised exception is an
`Except.error` carrying `str(exc)`).  Returns the final `deploy_attempts`
counter, the final `deploy_error`, and the published rows of the first
successful attempt, if any. -/
def deployLoop : List (Except String (List PubRow)) → ℕ → String →
    ℕ × String × Option (List PubRow)
  | [], n, err => (n, err, none)
  | outcome :: rest, n, _ =>
    match outcome with
    | Except.ok rows => (n + 1, "", some rows)
    | Except.error e => deployLoop rest (n + 1) e

/-- Embedding of lines 171-208 of `Pipeline.run` (the `mode == "production"`
deploy block): run the retry loop, then either record the failure streak
and auto-disable at the threshold, or reset the streaks of the published
verticals and merge-and-trim the published history.  The embedding is a
total function: every publisher exception is caught, so the run itself
never raises here. -/
def deployPhase (mode : String) (allGenerated : List GenBrief)
    (attempts : List (Except String (List PubRow))) (st : DeployState) :
    DeployOutcome :=
  if mode = "production" ∧ allGenerated ≠ [] then
    let r := deployLoop attempts 0 ""
    let publishedRows := r.2.2.getD []
    if publishedRows = [] then
      let genVerticals := (allGenerated.map (fun g => g.vertical)).dedup
      let failures2 : String → ℤ := fun v =>
        if (allGenerated.map (fun g => g.vertical)).contains v then st.failures v + 1
        else st.failures v
      let disabled2 := st.disabled ++ genVerticals.filter
        (fun v => DEPLOY_FAILURE_DISABLE_COUNT ≤ failures2 v ∧ ¬ (st.disabled.contains v))
      { state := { published := st.published, failures := failures2, disabled := disabled2 },
        deployAttempts := r.1, deployError := r.2.1, publishedRows := [] }
    else
      let failures2 : String → ℤ := fun v =>
        if (publishedRows.map (fun p => p.vertical)).contains v then 0 else st.failures v
      let published2 := trim_published_history
        (merge_published_rows st.published publishedRows)
      { state := { published := published2, failures := failures2, disabled := st.disabled },
        deployAttempts := r.1, deployError := r.2.1, publishedRows := publishedRows }
  else
    { state := st, deployAttempts := 0, deployError := "", publishedRows := [] }

/-! ## Concrete sample inputs used by witnesses and counterexamples -/

/-- A concrete candidate with zero source URLs. -/
def candNoSource : TopicCandidate :=
  { id := "c3", vertical := "ai_tech", title := "Enterprise AI benchmark update",
    sourceUrls := [], discoveredAt := "2026-02-19", snippet := "Benchmarks changed." }

/-- A concrete daily-history entry dated 2026-02-01. -/
def dayA : DailyEntry :=
  { date := "2026-02-01", duplicateRate := 0, policyFlagRate := 0, indexedRate := 1 }

/-- A concrete daily-history entry dated 2026-02-02. -/
def dayB : DailyEntry :=
  { date := "2026-02-02", duplicateRate := 0, policyFlagRate := 0, indexedRate := 1 }

/-- A second, different entry also dated 2026-02-01. -/
def dayAdup : DailyEntry :=
  { date := "2026-02-01", duplicateRate := 1/100, policyFlagRate := 0, indexedRate := 1 }

/-- A threshold-passing daily entry at a given date. -/
def goodDay (d : String) : DailyEntry :=
  { date := d, duplicateRate := 3/100, policyFlagRate := 5/1000, indexedRate := 41/100 }

/-- Seven threshold-passing entries that all carry the same calendar date. -/
def sameDateWeek : List DailyEntry :=
  [goodDay "2026-02-01", goodDay "2026-02-01", goodDay "2026-02-01",
   goodDay "2026-02-01", goodDay "2026-02-01", goodDay "2026-02-01",
   goodDay "2026-02-01"]

/-- A concrete instantiation of the abstract `dedupe_hash` parameter (any
function works for the rank claims; the identity keeps examples readable). -/
def dh0 : String → String := fun s => s

/-- A concrete near-duplicate detector that reports no near duplicates. -/
def nd0 : String → String → Bool := fun _ _ => false

/-- A concrete policy evaluator that flags and blocks nothing. -/
def pe0 : TopicCandidate → PolicyResult :=
  fun _ => { score := 1, flags := [], blocked := false }

/-- A fresh, approvable candidate. -/
def cand1 : TopicCandidate :=
  { id := "a1", vertical := "ai_tech", title := "fresh topic one",
    sourceUrls := ["https://example.com/1"], discoveredAt := "2026-02-19" }

/-- A second fresh, approvable candidate. -/
def cand2 : TopicCandidate :=
  { id := "a2", vertical := "ai_tech", title := "fresh topic two",
    sourceUrls := ["https://example.com/2"], discoveredAt := "2026-02-19" }

/-- A third fresh, approvable candidate. -/
def cand3 : TopicCandidate :=
  { id := "a3", vertical := "ai_tech", title := "fresh topic three",
    sourceUrls := ["https://example.com/3"], discoveredAt := "2026-02-19" }

/-- A candidate whose `dh0`-hash ("dup title") is already in `history0`. -/
def cdup : TopicCandidate :=
  { id := "a4", vertical := "ai_tech", title := "dup title",
    sourceUrls := ["https://example.com/4"], discoveredAt := "2026-02-19" }

/-- A history carrying the dedupe hash of `cdup` under `dh0`. -/
def history0 : List HistoryRow :=
  [{ title := "an old history title", dedupeHash := "dup title" }]

/-- One generated brief on the ai_tech channel. -/
def gen1 : List GenBrief := [{ vertical := "ai_tech" }]

/-- A deploy-state slice with empty history, zero counters, nothing disabled. -/
def st0 : DeployState :=
  { published := [], failures := fun _ => 0, disabled := [] }

/-- A published row whose stored `legacy_paths` contains its own path and a
duplicate (such rows can be loaded verbatim from a persisted state file). -/
def rowSelfLegacy : PubRow :=
  { slug := "s1", title := "t1", vertical := "ai_tech",
    publishedAt := "2026-02-19T00:00:00", path := "/stories/ai/s1",
    legacyPaths := ["/stories/ai/s1", "/old/x", "/old/x"] }

/-- A freshly published row. -/
def rowNew : PubRow :=
  { slug := "s2", title := "t2", vertical := "finance",
    publishedAt := "2026-02-20T00:00:00", path := "/stories/finance/s2",
    legacyPaths := ["/finance/old-s2"] }

/-! ## Rounding lemmas -/

theorem ratFloor_eq (q : ℚ) : ratFloor q = ⌊q⌋ := by
  rw [ratFloor, Rat.floor_def]

theorem floor_le_roundHalfEven (x : ℚ) : ⌊x⌋ ≤ roundHalfEven x := by
  simp only [roundHalfEven, ratFloor_eq]
  split_ifs <;> omega

theorem roundHalfEven_intCast (n : ℤ) : roundHalfEven (n : ℚ) = n := by
  simp only [roundHalfEven, ratFloor_eq, Int.floor_intCast]
  norm_num

theorem roundTo_eq_self (k : ℕ) (x : ℚ) (m : ℤ) (h : x * (10 : ℚ) ^ k = (m : ℚ)) :
    roundTo k x = x := by
  unfold roundTo
  rw [h, roundHalfEven_intCast]
  have hk : ((10 : ℚ) ^ k) ≠ 0 := by positivity
  exact (div_eq_iff hk).mpr h.symm

theorem roundScore_eq (n : ℕ) (b : Bool) :
    roundTo 4 (1 - (12/100) * (n : ℚ) - (if b = true then (2 : ℚ)/5 else 0)) =
      1 - (12/100) * (n : ℚ) - (if b = true then (2 : ℚ)/5 else 0) := by
  apply roundTo_eq_self 4 _ (10000 - 1200 * (n : ℤ) - (if b = true then 4000 else 0))
  cases b <;> push_cast <;> norm_num <;> ring

theorem le_roundTo_two (m : ℤ) (x : ℚ) (h : (m : ℚ)/100 ≤ x) :
    (m : ℚ)/100 ≤ roundTo 2 x := by
  have hmx : (m : ℚ) ≤ x * 100 := by linarith
  have hm : m ≤ ⌊x * 100⌋ := Int.le_floor.mpr hmx
  have h2 : m ≤ roundHalfEven (x * 100) := le_trans hm (floor_le_roundHalfEven _)
  have h3 : ((m : ℚ)) ≤ ((roundHalfEven (x * 100) : ℤ) : ℚ) := by exact_mod_cast h2
  unfold roundTo
  have h100 : ((10 : ℚ) ^ (2 : ℕ)) = 100 := by norm_num
  rw [h100]
  linarith

/-! ## C5: `evaluate_policy` blocking rule and score formula -/

/-- C5: `evaluate_policy` returns `blocked = true` exactly when the
missing-source condition (zero source URLs) or the restricted-advice
condition (finance vertical with a restricted-advice phrase contained in the
normalized title+snippet corpus) holds; the score is
`1 − 0.12·flag_count − 0.4·blocked` clamped to `[0, 1]` (the source's
4-decimal rounding is the identity on these values); and in particular a
candidate with zero source URLs is always blocked. -/
theorem policy_blocked_iff_and_score (t : TopicCandidate) :
    ((evaluate_policy t).blocked = true ↔
      (t.sourceUrls = [] ∨ (t.vertical = VERTICAL_FINANCE ∧
        ∃ p ∈ financeAdvicePatterns, containsSub p (mergedText t) = true))) ∧
    (evaluate_policy t).score =
      max 0 (min 1 (1 - (12/100) * ((evaluate_policy t).flags.length : ℚ) -
        (if (evaluate_policy t).blocked = true then (2 : ℚ)/5 else 0))) ∧
    (t.sourceUrls = [] → (evaluate_policy t).blocked = true) := by
  have hiff : (evaluate_policy t).blocked = true ↔
      (t.sourceUrls = [] ∨ (t.vertical = VERTICAL_FINANCE ∧
        ∃ p ∈ financeAdvicePatterns, containsSub p (mergedText t) = true)) := by
    simp only [evaluate_policy, policyBlockedOf, policyFlagsOf, List.any_eq_true]
    split_ifs with h1 h2 h3 h4 h5 <;> simp_all
  refine ⟨hiff, ?_, fun h => hiff.mpr (Or.inl h)⟩
  show max 0 (min 1 (roundTo 4 (1 - (12/100) * ((policyFlagsOf t).length : ℚ) -
      (if policyBlockedOf t then (2 : ℚ)/5 else 0)))) = _
  rw [roundScore_eq]
  rfl

/-- Witness for C5 at a concrete candidate with no source URLs. -/
theorem policy_blocked_iff_and_score_witness :
    candNoSource.sourceUrls = [] ∧ (evaluate_policy candNoSource).blocked = true :=
  ⟨rfl, (policy_blocked_iff_and_score candNoSource).2.2 rfl⟩

/-! ## Quota-allocation lemmas (C9, C10) -/

theorem quotaLoop_map_fst (base rem : ℤ) :
    ∀ (vs : List String) (i : ℕ), (quotaLoop base rem vs i).map Prod.fst = vs := by
  intro vs
  induction vs with
  | nil => intro i; rfl
  | cons v rest ih => intro i; simp [quotaLoop, ih]

theorem quotaLoop_snd_ge (base rem : ℤ) (hbase : 1 ≤ base) :
    ∀ (vs : List String) (i : ℕ) (p : String × ℤ), p ∈ quotaLoop base rem vs i → 1 ≤ p.2 := by
  intro vs
  induction vs with
  | nil => intro i p hp; simp [quotaLoop] at hp
  | cons v rest ih =>
    intro i p hp
    simp only [quotaLoop, List.mem_cons] at hp
    rcases hp with hp | hp
    · subst hp
      dsimp
      split_ifs <;> omega
    · exact ih (i + 1) p hp

theorem quotaLoop_sum (base rem : ℤ) :
    ∀ (vs : List String) (i : ℕ),
      ((quotaLoop base rem vs i).map Prod.snd).sum =
        base * vs.length + max 0 (min (rem - i) vs.length) := by
  intro vs
  induction vs with
  | nil =>
    intro i
    simp only [quotaLoop, List.map_nil, List.sum_nil, List.length_nil, Nat.cast_zero,
      mul_zero, zero_add]
    rw [min_def, max_def]
    split_ifs <;> omega
  | cons v rest ih =>
    intro i
    simp only [quotaLoop, List.map_cons, List.sum_cons, ih (i + 1), List.length_cons]
    push_cast
    have hb : base * ((rest.length : ℤ) + 1) = base * (rest.length : ℤ) + base := by ring
    rw [min_def, min_def, max_def, max_def]
    split_ifs <;> omega

/-- Helper shared by the quota claims: every allocated quota is at least 1,
for every vertical list and publish limit. -/
theorem allocate_quota_pos (vs : List String) (limit : ℤ) :
    ∀ p ∈ allocate_quota vs limit, 1 ≤ p.2 := by
  match vs with
  | [] => intro p hp; simp [allocate_quota] at hp
  | [v] =>
    intro p hp
    simp only [allocate_quota, List.mem_singleton] at hp
    subst hp
    exact le_max_left 1 limit
  | a :: b :: rest =>
    intro p hp
    simp only [allocate_quota] at hp
    set k : ℤ := ((a :: b :: rest).length : ℤ) with hk
    have hkpos : 0 < k := by simp [hk]; omega
    set total := max k limit with htotal
    have htk : k ≤ total := le_max_left _ _
    have hbase : 1 ≤ total.fdiv k := by
      rw [Int.fdiv_eq_ediv _ (le_of_lt hkpos)]
      rw [Int.le_ediv_iff_mul_le hkpos]
      omega
    exact quotaLoop_snd_ge _ _ hbase _ _ p hp

/-- C9: quota allocation.  A single active channel receives
`max(1, publish_limit)`; with `k ≥ 2` active channels the allocation keys
are exactly the channels in listing order, every quota is at least 1, and
the quotas sum to `total = max(k, publish_limit)`. -/
theorem allocate_quota_spec (vs : List String) (limit : ℤ) :
    (∀ v, vs = [v] → allocate_quota vs limit = [(v, max 1 limit)]) ∧
    (2 ≤ vs.length →
      ((allocate_quota vs limit).map Prod.fst = vs ∧
       (∀ p ∈ allocate_quota vs limit, 1 ≤ p.2) ∧
       ((allocate_quota vs limit).map Prod.snd).sum = max (vs.length : ℤ) limit)) := by
  constructor
  · intro v hv
    subst hv
    rfl
  · intro hlen
    rcases vs with _ | ⟨a, vs1⟩
    · simp at hlen
    rcases vs1 with _ | ⟨b, rest⟩
    · simp at hlen
    · refine ⟨?_, allocate_quota_pos _ _, ?_⟩
      · simp only [allocate_quota]
        exact quotaLoop_map_fst _ _ _ _
      · simp only [allocate_quota]
        have hL0 : 0 < (a :: b :: rest).length := by simp
        have hL : (0 : ℤ) < ((a :: b :: rest).length : ℤ) := by exact_mod_cast hL0
        rw [quotaLoop_sum]
        rw [Int.fdiv_eq_ediv _ (le_of_lt hL), Int.fmod_eq_emod _ (le_of_lt hL)]
        generalize hT : max (((a :: b :: rest).length : ℤ)) limit = total
        have h1 : 0 ≤ total % ((a :: b :: rest).length : ℤ) :=
          Int.emod_nonneg _ (ne_of_gt hL)
        have h2 : total % ((a :: b :: rest).length : ℤ) < ((a :: b :: rest).length : ℤ) :=
          Int.emod_lt_of_pos _ hL
        have hdm := Int.ediv_add_emod total ((a :: b :: rest).length : ℤ)
        have hcm : total / ((a :: b :: rest).length : ℤ) * ((a :: b :: rest).length : ℤ) =
            ((a :: b :: rest).length : ℤ) * (total / ((a :: b :: rest).length : ℤ)) :=
          mul_comm _ _
        push_cast
        rw [min_def, max_def]
        split_ifs <;> omega

/-- Witness for C9 at three channels and limit 10:
`total = max(3, 10) = 10 = 4 + 3 + 3`. -/
theorem allocate_quota_spec_witness :
    2 ≤ (["ai_tech", "finance", "lifestyle_pop"] : List String).length ∧
    ((allocate_quota ["ai_tech", "finance", "lifestyle_pop"] 10).map Prod.fst =
        ["ai_tech", "finance", "lifestyle_pop"] ∧
     (∀ p ∈ allocate_quota ["ai_tech", "finance", "lifestyle_pop"] 10, 1 ≤ p.2) ∧
     ((allocate_quota ["ai_tech", "finance", "lifestyle_pop"] 10).map Prod.snd).sum =
        max ((["ai_tech", "finance", "lifestyle_pop"] : List String).length : ℤ) 10) :=
  ⟨by norm_num, (allocate_quota_spec ["ai_tech", "finance", "lifestyle_pop"] 10).2 (by norm_num)⟩

/-- C10: `max_publish = 0` (or `None`) falls through Python's `or`, so the
effective publish limit is the persisted state's `publish_limit` (12 in the
default state), and with that limit every active channel still gets a
positive quota. -/
theorem effective_limit_zero_falls_through (s : ℤ) :
    effectivePublishLimit (some 0) s = effectivePublishLimit none s ∧
    effectivePublishLimit (some 0) DEFAULT_PUBLISH_LIMIT = 12 ∧
    (∀ vs : List String, vs ≠ [] →
      ∀ p ∈ allocate_quota vs (effectivePublishLimit (some 0) DEFAULT_PUBLISH_LIMIT),
        1 ≤ p.2) := by
  refine ⟨rfl, rfl, ?_⟩
  intro vs _ p hp
  exact allocate_quota_pos vs _ p hp

/-- Witness for C10 with all three channels active. -/
theorem effective_limit_zero_falls_through_witness :
    (["ai_tech", "finance", "lifestyle_pop"] : List String) ≠ [] ∧
    ∀ p ∈ allocate_quota ["ai_tech", "finance", "lifestyle_pop"]
        (effectivePublishLimit (some 0) DEFAULT_PUBLISH_LIMIT), 1 ≤ p.2 :=
  ⟨by simp, (effective_limit_zero_falls_through DEFAULT_PUBLISH_LIMIT).2.2
    ["ai_tech", "finance", "lifestyle_pop"] (by simp)⟩

/-! ## C8: `upsert_daily_history` -/

theorem truncLast_length_le (m : ℕ) (l : List DailyEntry) :
    (truncLast m l).length ≤ m := by
  unfold truncLast
  split_ifs with h
  · simp
    omega
  · omega

theorem truncLast_suffix (m : ℕ) (l : List DailyEntry) :
    (truncLast m l).IsSuffix l := by
  unfold truncLast
  split_ifs with h
  · exact List.drop_suffix _ _
  · exact List.suffix_refl _

/-- Counterexample to C8: `upsert_daily_history` only compares against the
LAST entry (`rows[-1]`), so an entry whose date matches an older,
non-trailing entry is appended, leaving two entries with the same date —
the claim's replace-anywhere/at-most-one-per-date behaviour fails. -/
theorem upsert_daily_history_counterexample :
    upsert_daily_history [dayA, dayB] dayAdup = [dayA, dayB, dayAdup] ∧
    ((upsert_daily_history [dayA, dayB] dayAdup).filter
      (fun x => x.date = dayAdup.date)).length = 2 := by
  have h1 : upsert_daily_history [dayA, dayB] dayAdup = [dayA, dayB, dayAdup] := by
    have hne : dayB.date ≠ dayAdup.date := by decide
    simp [upsert_daily_history, truncLast, MAX_DAILY_HISTORY, hne]
  refine ⟨h1, ?_⟩
  rw [h1]
  have ha : dayA.date = dayAdup.date := by decide
  have hb : ¬ (dayB.date = dayAdup.date) := by decide
  simp [List.filter, ha, hb]

/-- C8 (amended): the upsert replaces only when the LAST entry has the same
date (not "anywhere in the history"); otherwise the entry is appended even
when an older entry shares its date.  The result is then truncated to the
most recent `MAX_DAILY_HISTORY = 120` entries: it is a suffix of the
updated list and never exceeds 120 entries. -/
theorem upsert_daily_history_spec (rows : List DailyEntry) (entry : DailyEntry) :
    (∀ last, rows.getLast? = some last → last.date = entry.date →
      upsert_daily_history rows entry = truncLast MAX_DAILY_HISTORY (rows.dropLast ++ [entry])) ∧
    (∀ last, rows.getLast? = some last → last.date ≠ entry.date →
      upsert_daily_history rows entry = truncLast MAX_DAILY_HISTORY (rows ++ [entry])) ∧
    (rows = [] → upsert_daily_history rows entry = [entry]) ∧
    (upsert_daily_history rows entry).length ≤ MAX_DAILY_HISTORY ∧
    (∀ l, (truncLast MAX_DAILY_HISTORY l).IsSuffix l) := by
  refine ⟨?_, ?_, ?_, ?_, fun l => truncLast_suffix _ l⟩
  · intro last hlast hdate
    unfold upsert_daily_history
    rw [hlast]
    simp [hdate]
  · intro last hlast hdate
    unfold upsert_daily_history
    rw [hlast]
    simp [hdate]
  · intro h
    subst h
    simp [upsert_daily_history, truncLast, MAX_DAILY_HISTORY]
  · unfold upsert_daily_history
    exact truncLast_length_le _ _

/-- Witness for C8 (amended) at a matching trailing date. -/
theorem upsert_daily_history_spec_witness :
    ([dayA] : List DailyEntry).getLast? = some dayA ∧ dayA.date = dayAdup.date ∧
    upsert_daily_history [dayA] dayAdup = truncLast MAX_DAILY_HISTORY ([dayA].dropLast ++ [dayAdup]) :=
  ⟨rfl, by decide, (upsert_daily_history_spec [dayA] dayAdup).1 dayA rfl (by decide)⟩

/-! ## C6: scaling controller -/

/-- Counterexample to C6: the controller checks only the threshold rules on
the last 7 entries — it never inspects the dates.  Seven entries sharing
one calendar date (hence in particular not 7 consecutive calendar days)
still produce the 12→18 promotion. -/
theorem maybe_scale_counterexample :
    maybe_scale_publish_limit 12 sameDateWeek = (some 18, 18) ∧
    ¬ ((sameDateWeek.map (fun r => r.date)).Nodup) := by
  constructor
  · have hpass : dayPasses (goodDay "2026-02-01") = true := by
      norm_num [dayPasses, goodDay]
    simp [maybe_scale_publish_limit, sameDateWeek, DEFAULT_PUBLISH_LIMIT,
      PUBLISH_STAGES, nextStage, hpass]
  · decide

/-- C6 (amended): no promotion happens with fewer than 7 daily-history
entries; when a promotion is returned, the history has at least 7 entries
and the LAST 7 entries each satisfy the three quality thresholds
(duplicate rate < 0.05, policy-flag rate < 0.01, indexed rate ≥ 0.35).
The controller does not require the 7 dates to be consecutive calendar
days. -/
theorem maybe_scale_spec (limit : ℤ) (history : List DailyEntry) :
    (history.length < 7 → (maybe_scale_publish_limit limit history).1 = none) ∧
    (∀ n, (maybe_scale_publish_limit limit history).1 = some n →
      7 ≤ history.length ∧
      ∀ row ∈ history.drop (history.length - 7),
        row.duplicateRate < 5/100 ∧ row.policyFlagRate < 1/100 ∧
          35/100 ≤ row.indexedRate) := by
  constructor
  · intro hlen
    unfold maybe_scale_publish_limit
    split_ifs <;> simp_all
  · intro n hn
    simp only [maybe_scale_publish_limit, DEFAULT_PUBLISH_LIMIT] at hn
    split_ifs at hn <;> try simp at hn
    all_goals
      have hlen : ¬ history.length < 7 := by assumption
    all_goals
      have hallb : (history.drop (history.length - 7)).all dayPasses = true := by assumption
    all_goals
      refine ⟨by omega, ?_⟩
    all_goals
      intro row hrow
    all_goals
      have hd := List.all_eq_true.mp hallb row hrow
    all_goals
      simp only [dayPasses, Bool.and_eq_true, decide_eq_true_eq] at hd
    all_goals
      exact ⟨hd.1.1, hd.1.2, hd.2⟩

/-- Witness for C6 (amended) on an empty history. -/
theorem maybe_scale_spec_witness :
    ([] : List DailyEntry).length < 7 ∧ (maybe_scale_publish_limit 12 []).1 = none :=
  ⟨by norm_num, (maybe_scale_spec 12 []).1 (by norm_num)⟩

/-! ## C3: budget-aware generation-mode selection -/

/-- Helper: once the remaining budget is below the balanced unit cost, the
selector returns the template engine (this covers `remaining ≤ 0` as well). -/
theorem choose_forces_template (q : String) (b : Budget) (hlim : 1 ≤ b.limitKrw)
    (h : b.limitKrw - b.spentKrw < BALANCED_EST_KRW) :
    (choose_generation_mode "gemini" q b).1 = ("template", "balanced") := by
  unfold choose_generation_mode
  rw [if_neg (by decide : ¬ ("gemini" : String) = "template")]
  rw [max_eq_right hlim]
  dsimp only
  by_cases h0 : b.limitKrw - b.spentKrw ≤ 0
  · rw [if_pos h0]
  · rw [if_neg h0]
    set qual := if b.limitKrw * budgetAlertRate ≤ b.spentKrw ∧ q = "premium"
      then "balanced" else q with hq
    have hest : BALANCED_EST_KRW ≤
        (if qual = "premium" then PREMIUM_EST_KRW else BALANCED_EST_KRW) := by
      split_ifs
      · unfold BALANCED_EST_KRW PREMIUM_EST_KRW
        norm_num
      · exact le_refl _
    have hlt : b.limitKrw - b.spentKrw <
        (if qual = "premium" then PREMIUM_EST_KRW else BALANCED_EST_KRW) :=
      lt_of_lt_of_le h hest
    rw [if_pos hlt]
    have hnot : ¬ (qual = "premium" ∧ BALANCED_EST_KRW ≤ b.limitKrw - b.spentKrw) := by
      rintro ⟨_, hge⟩
      exact absurd h (not_lt.mpr hge)
    rw [if_neg hnot, if_pos h]

theorem apply_cost_limit_eq (b : Budget) (e : String) (c : ℚ) :
    (apply_generation_cost_to_budget b e c).limitKrw = b.limitKrw := by
  unfold apply_generation_cost_to_budget
  split_ifs <;> rfl

theorem apply_cost_spent_mono (b : Budget) (e : String) (c : ℚ)
    (hcent : ∃ m : ℤ, b.spentKrw = (m : ℚ)/100) :
    b.spentKrw ≤ (apply_generation_cost_to_budget b e c).spentKrw ∧
    ∃ m : ℤ, (apply_generation_cost_to_budget b e c).spentKrw = (m : ℚ)/100 := by
  by_cases hp : pyStartsWith e "gemini" = true
  · unfold apply_generation_cost_to_budget
    rw [if_neg (not_not_intro hp)]
    dsimp only
    obtain ⟨m, hm⟩ := hcent
    constructor
    · have hle : (m : ℚ)/100 ≤ b.spentKrw + max 0 c := by
        rw [← hm]
        have := le_max_left (0 : ℚ) c
        linarith
      have := le_roundTo_two m _ hle
      rw [← hm] at this
      exact this
    · refine ⟨roundHalfEven ((b.spentKrw + max 0 c) * (10 : ℚ) ^ (2 : ℕ)), ?_⟩
      unfold roundTo
      norm_num
  · unfold apply_generation_cost_to_budget
    rw [if_pos hp]
    exact ⟨le_refl _, hcent⟩

theorem applyCosts_spent (b : Budget) (payloads : List (String × ℚ))
    (hcent : ∃ m : ℤ, b.spentKrw = (m : ℚ)/100) :
    b.spentKrw ≤ (applyCosts b payloads).spentKrw ∧
    (applyCosts b payloads).limitKrw = b.limitKrw ∧
    ∃ m : ℤ, (applyCosts b payloads).spentKrw = (m : ℚ)/100 := by
  induction payloads generalizing b with
  | nil => exact ⟨le_refl _, rfl, hcent⟩
  | cons p rest ih =>
    have hstep := apply_cost_spent_mono b p.1 p.2 hcent
    have hrec := ih (apply_generation_cost_to_budget b p.1 p.2) hstep.2
    have hh : applyCosts b (p :: rest) =
        applyCosts (apply_generation_cost_to_budget b p.1 p.2) rest := rfl
    rw [hh]
    exact ⟨le_trans hstep.1 hrec.1, hrec.2.1.trans (apply_cost_limit_eq b p.1 p.2), hrec.2.2⟩

/-- C3: the generation-mode selector never picks the rich engine beyond the
budget: with `remaining = limit − spent`, a call with `remaining ≤ 0` or
`remaining <` the balanced unit cost returns template/balanced; whenever the
rich engine is returned the remaining budget covers the selected tier's unit
cost (balanced ≥ 120, premium ≥ 220); and after booking any sequence of
non-negative generation costs into `spent`, every call made while
`spent + balanced_cost > limit` returns the template engine. -/
theorem choose_generation_mode_budget_guard (q : String) (b : Budget)
    (payloads : List (String × ℚ)) (hlim : 1 ≤ b.limitKrw)
    (hcent : ∃ m : ℤ, b.spentKrw = (m : ℚ)/100) :
    (b.limitKrw - b.spentKrw ≤ 0 →
      (choose_generation_mode "gemini" q b).1 = ("template", "balanced")) ∧
    (b.limitKrw - b.spentKrw < BALANCED_EST_KRW →
      (choose_generation_mode "gemini" q b).1 = ("template", "balanced")) ∧
    ((choose_generation_mode "gemini" q b).1.1 = "gemini" →
      BALANCED_EST_KRW ≤ b.limitKrw - b.spentKrw) ∧
    ((choose_generation_mode "gemini" q b).1 = ("gemini", "premium") →
      PREMIUM_EST_KRW ≤ b.limitKrw - b.spentKrw) ∧
    (b.limitKrw < b.spentKrw + BALANCED_EST_KRW →
      (choose_generation_mode "gemini" q (applyCosts b payloads)).1 =
        ("template", "balanced")) := by
  refine ⟨?_, ?_, ?_, ?_, ?_⟩
  · intro h
    exact choose_forces_template q b hlim (by unfold BALANCED_EST_KRW; linarith)
  · intro h
    exact choose_forces_template q b hlim h
  · intro h
    by_contra hc
    rw [choose_forces_template q b hlim (by unfold BALANCED_EST_KRW at hc ⊢; linarith)] at h
    exact absurd h (by decide)
  · intro h
    unfold choose_generation_mode at h
    rw [if_neg (by decide : ¬ ("gemini" : String) = "template")] at h
    rw [max_eq_right hlim] at h
    dsimp only at h
    by_cases h0 : b.limitKrw - b.spentKrw ≤ 0
    · rw [if_pos h0] at h
      simp at h
    rw [if_neg h0] at h
    set qual := if b.limitKrw * budgetAlertRate ≤ b.spentKrw ∧ q = "premium"
      then "balanced" else q with hq
    by_cases hrem : b.limitKrw - b.spentKrw <
        (if qual = "premium" then PREMIUM_EST_KRW else BALANCED_EST_KRW)
    · rw [if_pos hrem] at h
      by_cases hq1 : qual = "premium" ∧ BALANCED_EST_KRW ≤ b.limitKrw - b.spentKrw
      · rw [if_pos hq1] at h
        simp at h
      rw [if_neg hq1] at h
      by_cases hq2 : b.limitKrw - b.spentKrw < BALANCED_EST_KRW
      · rw [if_pos hq2] at h
        simp at h
      rw [if_neg hq2] at h
      simp only [Prod.mk.injEq] at h
      exfalso
      exact hq1 ⟨h.2, not_lt.mp hq2⟩
    · rw [if_neg hrem] at h
      simp only [Prod.mk.injEq] at h
      rw [h.2, if_pos rfl] at hrem
      exact not_lt.mp hrem
  · intro h
    have hs := applyCosts_spent b payloads hcent
    apply choose_forces_template q _ (by rw [hs.2.1]; exact hlim)
    rw [hs.2.1]
    unfold BALANCED_EST_KRW at h ⊢
    linarith [hs.1]

/-- Witness for C3: limit 300, spent 290 (a cent multiple), one booked
gemini cost; with `300 < 290 + 120` the selector returns template. -/
theorem choose_generation_mode_budget_guard_witness :
    (1 : ℚ) ≤ 300 ∧
    ({ spentKrw := 290, limitKrw := 300 } : Budget).limitKrw <
      ({ spentKrw := 290, limitKrw := 300 } : Budget).spentKrw + BALANCED_EST_KRW ∧
    (choose_generation_mode "gemini" "premium"
      (applyCosts { spentKrw := 290, limitKrw := 300 } [("gemini-2.5-pro", 80)])).1 =
      ("template", "balanced") :=
  ⟨by norm_num,
   by unfold BALANCED_EST_KRW; norm_num,
   (choose_generation_mode_budget_guard "premium" { spentKrw := 290, limitKrw := 300 }
      [("gemini-2.5-pro", 80)] (by norm_num) ⟨29000, by norm_num⟩).2.2.2.2
      (by unfold BALANCED_EST_KRW; norm_num)⟩

/-! ## Rank loop lemmas (C4, C7) -/

section RankLemmas

variable (dh : String → String)
variable (nd : String → String → Bool)
variable (pe pe2 : TopicCandidate → PolicyResult)
variable (mc : ℤ)

theorem approveGo_of_halted (l : List TopicCandidate) (s : RankState)
    (h : s.halted = true) : approveGo dh nd pe mc l s = s := by
  cases l with
  | nil => rfl
  | cons c rest =>
    unfold approveGo
    rw [if_pos h]

theorem approveGo_cons (c : TopicCandidate) (l : List TopicCandidate) (s : RankState) :
    approveGo dh nd pe mc (c :: l) s =
      if s.halted = true then s
      else approveGo dh nd pe mc l (approveStep dh nd pe mc s c) := rfl

theorem approveGo_append (pre post : List TopicCandidate) :
    ∀ s : RankState, approveGo dh nd pe mc (pre ++ post) s =
      approveGo dh nd pe mc post (approveGo dh nd pe mc pre s) := by
  induction pre with
  | nil => intro s; rfl
  | cons c rest ih =>
    intro s
    rw [show (c :: rest) ++ post = c :: (rest ++ post) from rfl]
    rw [approveGo_cons, approveGo_cons]
    by_cases h : s.halted = true
    · rw [if_pos h, if_pos h, approveGo_of_halted dh nd pe mc post s h]
    · rw [if_neg h, if_neg h]
      exact ih _

theorem approveStep_of_contains (s : RankState) (c : TopicCandidate)
    (hc : s.histHashes.contains (dh c.title) = true) :
    approveStep dh nd pe mc s c = { s with dupCount := s.dupCount + 1 } := by
  unfold approveStep
  dsimp only
  rw [if_pos hc, if_pos rfl]

theorem approveStep_histHashes_subset (s : RankState) (c : TopicCandidate) :
    s.histHashes ⊆ (approveStep dh nd pe mc s c).histHashes := by
  unfold approveStep
  dsimp only
  split_ifs <;> first
    | exact List.Subset.refl _
    | exact List.subset_append_left _ _

theorem approveGo_histHashes_subset (l : List TopicCandidate) :
    ∀ s : RankState, s.histHashes ⊆ (approveGo dh nd pe mc l s).histHashes := by
  induction l with
  | nil => intro s; exact List.Subset.refl _
  | cons c rest ih =>
    intro s
    unfold approveGo
    split_ifs
    · exact List.Subset.refl _
    · exact List.Subset.trans (approveStep_histHashes_subset dh nd pe mc s c) (ih _)

set_option maxRecDepth 8000 in
theorem approveStep_approved_inv (H : List String) (s : RankState) (c : TopicCandidate)
    (hsub : ∀ x ∈ H, x ∈ s.histHashes)
    (hinv : ∀ a ∈ s.approved, a.dedupeHash ∉ H) :
    ∀ a ∈ (approveStep dh nd pe mc s c).approved, a.dedupeHash ∉ H := by
  unfold approveStep
  dsimp only
  split_ifs <;> intro a ha <;> try exact hinv a ha
  all_goals try (exfalso; exact (by assumption : ¬ (true = true)) rfl)
  all_goals
    rcases List.mem_append.mp ha with h | h
  all_goals try exact hinv a h
  all_goals
    have ha2 := List.mem_singleton.mp h
  all_goals
    subst ha2
  all_goals
    dsimp only
  all_goals
    intro hmem
  all_goals
    have hcf : ¬ (s.histHashes.contains (dh c.title) = true) := by assumption
  all_goals
    exact hcf (by simpa using hsub _ hmem)

theorem approveGo_approved_inv (H : List String) (l : List TopicCandidate) :
    ∀ s : RankState, (∀ x ∈ H, x ∈ s.histHashes) →
      (∀ a ∈ s.approved, a.dedupeHash ∉ H) →
      ∀ a ∈ (approveGo dh nd pe mc l s).approved, a.dedupeHash ∉ H := by
  induction l with
  | nil => intro s _ hinv; exact hinv
  | cons c rest ih =>
    intro s hsub hinv
    unfold approveGo
    split_ifs
    · exact hinv
    · exact ih _
        (fun x hx => approveStep_histHashes_subset dh nd pe mc s c (hsub x hx))
        (approveStep_approved_inv dh nd pe mc H s c hsub hinv)

theorem approveStep_policy_congr (H : List String) (s : RankState) (c : TopicCandidate)
    (hsub : ∀ x ∈ H, x ∈ s.histHashes)
    (hagree : ∀ x : TopicCandidate, dh x.title ∉ H → pe x = pe2 x) :
    approveStep dh nd pe mc s c = approveStep dh nd pe2 mc s c := by
  by_cases hc : s.histHashes.contains (dh c.title) = true
  · rw [approveStep_of_contains dh nd pe mc s c hc,
      approveStep_of_contains dh nd pe2 mc s c hc]
  · have hpe : pe c = pe2 c := by
      apply hagree
      intro hmem
      exact hc (by simpa using hsub _ hmem)
    unfold approveStep
    rw [hpe]

theorem approveGo_policy_congr (H : List String) (l : List TopicCandidate) :
    ∀ s : RankState, (∀ x ∈ H, x ∈ s.histHashes) →
      (∀ x : TopicCandidate, dh x.title ∉ H → pe x = pe2 x) →
      approveGo dh nd pe mc l s = approveGo dh nd pe2 mc l s := by
  induction l with
  | nil => intro s _ _; rfl
  | cons c rest ih =>
    intro s hsub hagree
    unfold approveGo
    split_ifs
    · rfl
    · rw [approveStep_policy_congr dh nd pe pe2 mc H s c hsub hagree]
      exact ih _
        (fun x hx => approveStep_histHashes_subset dh nd pe2 mc s c (hsub x hx))
        hagree

theorem approveStep_halted_len (s : RankState) (c : TopicCandidate)
    (hs : s.halted = false) (hh : (approveStep dh nd pe mc s c).halted = true) :
    mc ≤ ((approveStep dh nd pe mc s c).approved.length : ℤ) := by
  unfold approveStep at hh ⊢
  dsimp only at hh ⊢
  split_ifs at hh ⊢ <;> first
    | (exfalso; rw [hs] at hh; exact Bool.false_ne_true hh)
    | assumption

theorem approveGo_halted_len (l : List TopicCandidate) :
    ∀ s : RankState, s.halted = false →
      (approveGo dh nd pe mc l s).halted = true →
      mc ≤ ((approveGo dh nd pe mc l s).approved.length : ℤ) := by
  induction l with
  | nil =>
    intro s hs hh
    exact absurd (hs ▸ hh) (by simp)
  | cons c rest ih =>
    intro s hs hh
    unfold approveGo at hh ⊢
    rw [if_neg (by rw [hs]; exact Bool.false_ne_true)] at hh ⊢
    cases hstep : (approveStep dh nd pe mc s c).halted
    · exact ih _ hstep hh
    · rw [approveGo_of_halted dh nd pe mc rest _ hstep] at hh ⊢
      exact approveStep_halted_len dh nd pe mc s c hs hstep

end RankLemmas

/-! ## C7: the max-count cutoff in `approve_topics` -/

/-- Counterexample to C7: with `max_count = 1` the first approval halts the
loop (second conjunct shows only one topic was approved), yet the returned
`candidate_count` is the FULL input length 3 — the source sets
`candidate_count = len(candidate_list)` — not the number of candidates seen
before the cutoff (which is 1) as the claim states. -/
theorem approve_cutoff_counterexample :
    (approveGo dh0 nd0 pe0 1 [cand1] (initRankState [])).halted = true ∧
    (approve_topics dh0 nd0 pe0 1 [cand1, cand2, cand3] []).2.candidateCount = 3 ∧
    (approve_topics dh0 nd0 pe0 1 [cand1, cand2, cand3] []).1.length = 1 := by
  refine ⟨rfl, rfl, rfl⟩

/-- C7 (amended): once the loop state is halted (`max_count` approvals
reached), the remaining candidates are not evaluated at all — the loop
state is frozen, so no dedupe check or policy evaluation happens for them —
and the halt only occurs with at least `max_count` approvals accumulated;
however `candidate_count` always reports the FULL input list length,
including the unexamined remainder. -/
theorem approve_cutoff_spec (dh : String → String) (nd : String → String → Bool)
    (pe : TopicCandidate → PolicyResult) (mc : ℤ) (history : List HistoryRow)
    (pre post : List TopicCandidate)
    (hhalt : (approveGo dh nd pe mc pre (initRankState history)).halted = true) :
    approveGo dh nd pe mc (pre ++ post) (initRankState history) =
      approveGo dh nd pe mc pre (initRankState history) ∧
    (approve_topics dh nd pe mc (pre ++ post) history).2.candidateCount =
      (pre ++ post).length ∧
    mc ≤ ((approveGo dh nd pe mc (pre ++ post) (initRankState history)).approved.length : ℤ) := by
  have h1 : approveGo dh nd pe mc (pre ++ post) (initRankState history) =
      approveGo dh nd pe mc pre (initRankState history) := by
    rw [approveGo_append dh nd pe mc pre post (initRankState history),
      approveGo_of_halted dh nd pe mc post _ hhalt]
  refine ⟨h1, rfl, ?_⟩
  rw [h1]
  exact approveGo_halted_len dh nd pe mc pre (initRankState history) rfl hhalt

/-- Witness for C7 (amended): one approvable candidate and `max_count = 1`
halt the loop; the candidate count of the extended run is the full length. -/
theorem approve_cutoff_spec_witness :
    (approveGo dh0 nd0 pe0 1 [cand1] (initRankState [])).halted = true ∧
    (approve_topics dh0 nd0 pe0 1 ([cand1] ++ [cand2]) []).2.candidateCount =
      ([cand1] ++ [cand2]).length :=
  ⟨rfl, (approve_cutoff_spec dh0 nd0 pe0 1 [] [cand1] [cand2] rfl).2.1⟩

/-! ## C4: exact-hash duplicates in `approve_topics` -/

/-- Counterexample to C4: a candidate whose dedupe hash is in the history
hashes but which sits after the `max_count` cutoff is never examined, so
`duplicate_count` stays 0 instead of being incremented by 1 for it (the
second candidate is such a duplicate: its hash is in the initial history,
yet the run — `max_count = 1`, first candidate approved — reports zero
duplicates). -/
theorem approve_duplicate_counterexample :
    dh0 cdup.title ∈ (initRankState history0).histHashes ∧
    (approve_topics dh0 nd0 pe0 1 [cand1, cdup] history0).2.duplicateCount = 0 ∧
    (approve_topics dh0 nd0 pe0 1 [cand1, cdup] history0).1.length = 1 := by
  refine ⟨by decide, rfl, rfl⟩

/-- C4 (amended): a candidate whose dedupe hash is among the history's
dedupe hashes never appears in the approved output (first conjunct: every
approved topic's hash avoids the initial history hashes); it is never
policy-evaluated or confidence-scored (second conjunct: the run result does
not depend on the value of the policy evaluator on such candidates); and it
increments `duplicate_count` by exactly 1, leaving everything else in the
loop state unchanged, PROVIDED it is reached before `max_count` approvals
have accumulated (third conjunct) — a candidate past the cutoff is skipped
entirely and not counted. -/
theorem approve_duplicate_spec (dh : String → String) (nd : String → String → Bool)
    (pe pe2 : TopicCandidate → PolicyResult) (mc : ℤ) (history : List HistoryRow)
    (pre post : List TopicCandidate) (c : TopicCandidate)
    (hagree : ∀ x : TopicCandidate,
      dh x.title ∉ (initRankState history).histHashes → pe x = pe2 x)
    (hdup : dh c.title ∈ (initRankState history).histHashes)
    (hnh : (approveGo dh nd pe mc pre (initRankState history)).halted = false) :
    (∀ a ∈ (approve_topics dh nd pe mc (pre ++ c :: post) history).1,
      a.dedupeHash ∉ (initRankState history).histHashes) ∧
    approve_topics dh nd pe mc (pre ++ c :: post) history =
      approve_topics dh nd pe2 mc (pre ++ c :: post) history ∧
    approveGo dh nd pe mc (pre ++ c :: post) (initRankState history) =
      approveGo dh nd pe mc post
        { approveGo dh nd pe mc pre (initRankState history) with
          dupCount := (approveGo dh nd pe mc pre (initRankState history)).dupCount + 1 } := by
  refine ⟨?_, ?_, ?_⟩
  · intro a ha
    exact approveGo_approved_inv dh nd pe mc
      (initRankState history).histHashes (pre ++ c :: post) (initRankState history)
      (fun x hx => hx) (fun a h => absurd h (List.not_mem_nil a)) a ha
  · unfold approve_topics
    rw [approveGo_policy_congr dh nd pe pe2 mc
      (initRankState history).histHashes (pre ++ c :: post) (initRankState history)
      (fun x hx => hx) hagree]
  · rw [approveGo_append dh nd pe mc pre (c :: post) (initRankState history)]
    rw [approveGo_cons]
    rw [if_neg (by rw [hnh]; exact Bool.false_ne_true)]
    have hmem : dh c.title ∈ (approveGo dh nd pe mc pre (initRankState history)).histHashes :=
      approveGo_histHashes_subset dh nd pe mc pre (initRankState history) hdup
    have hcon : (approveGo dh nd pe mc pre (initRankState history)).histHashes.contains
        (dh c.title) = true := by simpa using hmem
    rw [approveStep_of_contains dh nd pe mc _ c hcon]

/-- Witness for C4 (amended): `cdup` follows one approvable candidate with
`max_count = 5` (no cutoff), and its hash is in the history. -/
theorem approve_duplicate_spec_witness :
    dh0 cdup.title ∈ (initRankState history0).histHashes ∧
    (approveGo dh0 nd0 pe0 5 [cand1] (initRankState history0)).halted = false ∧
    approveGo dh0 nd0 pe0 5 ([cand1] ++ cdup :: []) (initRankState history0) =
      approveGo dh0 nd0 pe0 5 []
        { approveGo dh0 nd0 pe0 5 [cand1] (initRankState history0) with
          dupCount := (approveGo dh0 nd0 pe0 5 [cand1] (initRankState history0)).dupCount + 1 } :=
  ⟨by decide, rfl,
   (approve_duplicate_spec dh0 nd0 pe0 pe0 5 history0 [cand1] [] cdup
      (fun _ _ => rfl) (by decide) rfl).2.2⟩

/-! ## C2: production deploy failure and success handling -/

theorem deployLoop_ok (errs : List String) (rows : List PubRow)
    (rest : List (Except String (List PubRow))) :
    ∀ (n : ℕ) (err : String),
      deployLoop (errs.map Except.error ++ Except.ok rows :: rest) n err =
        (n + errs.length + 1, "", some rows) := by
  induction errs with
  | nil => intro n err; rfl
  | cons e es ih =>
    intro n err
    rw [show ((e :: es).map Except.error ++ Except.ok rows :: rest) =
      Except.error e :: (es.map Except.error ++ Except.ok rows :: rest) from rfl]
    rw [show deployLoop
        (Except.error e :: (es.map Except.error ++ Except.ok rows :: rest)) n err =
      deployLoop (es.map Except.error ++ Except.ok rows :: rest) (n + 1) e from rfl]
    rw [ih (n + 1) e]
    simp only [List.length_cons, Prod.mk.injEq, and_true, true_and]
    omega

/-- C2: in production mode with at least one generated brief, the deploy
phase is a total function of the three caught attempt outcomes (the run
never raises).  When all 3 attempts raise: the persisted published history
is unchanged, `deploy_attempts = 3` and `deploy_error` is the last message,
the consecutive-failure counter of every channel with a generated brief is
incremented by exactly 1 (others untouched), and every such channel whose
counter reaches `DEPLOY_FAILURE_DISABLE_COUNT = 3` enters the disabled set.
When an attempt succeeds with a non-empty row list: the counter of every
channel with published rows is reset to 0 (others untouched) and the rows
are merged into the published history. -/
theorem deploy_phase_spec (gen : List GenBrief) (st : DeployState) (hg : gen ≠ []) :
    (∀ e1 e2 e3 : String,
      (deployPhase "production" gen
        [Except.error e1, Except.error e2, Except.error e3] st).state.published =
          st.published ∧
      (deployPhase "production" gen
        [Except.error e1, Except.error e2, Except.error e3] st).deployAttempts = 3 ∧
      (deployPhase "production" gen
        [Except.error e1, Except.error e2, Except.error e3] st).deployError = e3 ∧
      (∀ v, v ∈ gen.map (fun g => g.vertical) →
        (deployPhase "production" gen
          [Except.error e1, Except.error e2, Except.error e3] st).state.failures v =
            st.failures v + 1) ∧
      (∀ v, v ∉ gen.map (fun g => g.vertical) →
        (deployPhase "production" gen
          [Except.error e1, Except.error e2, Except.error e3] st).state.failures v =
            st.failures v) ∧
      (∀ v, v ∈ gen.map (fun g => g.vertical) →
        DEPLOY_FAILURE_DISABLE_COUNT ≤ st.failures v + 1 →
        v ∈ (deployPhase "production" gen
          [Except.error e1, Except.error e2, Except.error e3] st).state.disabled)) ∧
    (∀ (errs : List String) (rows : List PubRow)
        (rest : List (Except String (List PubRow))), rows ≠ [] →
      (deployPhase "production" gen
        (errs.map Except.error ++ Except.ok rows :: rest) st).state.published =
          trim_published_history (merge_published_rows st.published rows) ∧
      (∀ v, v ∈ rows.map (fun p => p.vertical) →
        (deployPhase "production" gen
          (errs.map Except.error ++ Except.ok rows :: rest) st).state.failures v = 0) ∧
      (∀ v, v ∉ rows.map (fun p => p.vertical) →
        (deployPhase "production" gen
          (errs.map Except.error ++ Except.ok rows :: rest) st).state.failures v =
            st.failures v)) := by
  constructor
  · intro e1 e2 e3
    have hloop : deployLoop [Except.error e1, Except.error e2, Except.error e3] 0 "" =
        (3, e3, none) := rfl
    unfold deployPhase
    rw [if_pos (And.intro rfl hg)]
    dsimp only
    rw [hloop]
    dsimp only [Option.getD]
    rw [if_pos rfl]
    refine ⟨rfl, rfl, rfl, ?_, ?_, ?_⟩
    · intro v hv
      have hc : (gen.map (fun g => g.vertical)).contains v = true := by simpa using hv
      dsimp only
      rw [if_pos hc]
    · intro v hv
      have hc : ¬ ((gen.map (fun g => g.vertical)).contains v = true) := by simpa using hv
      dsimp only
      rw [if_neg hc]
    · intro v hv hcount
      dsimp only
      by_cases hd : v ∈ st.disabled
      · exact List.mem_append_left _ hd
      · apply List.mem_append_right
        apply List.mem_filter.mpr
        refine ⟨List.mem_dedup.mpr hv, ?_⟩
        rw [decide_eq_true_iff]
        constructor
        · have hc : (gen.map (fun g => g.vertical)).contains v = true := by simpa using hv
          rw [if_pos hc]
          exact hcount
        · simpa using hd
  · intro errs rows rest hrows
    have hloop := deployLoop_ok errs rows rest 0 ""
    unfold deployPhase
    rw [if_pos (And.intro rfl hg)]
    dsimp only
    rw [hloop]
    dsimp only [Option.getD]
    rw [if_neg hrows]
    refine ⟨rfl, ?_, ?_⟩
    · intro v hv
      have hc : (rows.map (fun p => p.vertical)).contains v = true := by simpa using hv
      dsimp only
      rw [if_pos hc]
    · intro v hv
      have hc : ¬ ((rows.map (fun p => p.vertical)).contains v = true) := by simpa using hv
      dsimp only
      rw [if_neg hc]

/-- Witness for C2 at one generated brief, three failed attempts. -/
theorem deploy_phase_spec_witness :
    gen1 ≠ [] ∧
    (deployPhase "production" gen1
      [Except.error "boom", Except.error "boom", Except.error "boom"] st0).state.published =
        st0.published ∧
    (deployPhase "production" gen1
      [Except.error "boom", Except.error "boom", Except.error "boom"] st0).state.failures
        "ai_tech" = st0.failures "ai_tech" + 1 :=
  ⟨by decide,
   ((deploy_phase_spec gen1 st0 (by decide)).1 "boom" "boom" "boom").1,
   ((deploy_phase_spec gen1 st0 (by decide)).1 "boom" "boom" "boom").2.2.2.1
     "ai_tech" (by decide)⟩

/-! ## Association-list lemmas for the published-rows merge (C1) -/

theorem upsertKeep_keys_sub (m : List (String × PubRow)) (k : String) (v : PubRow) :
    ∀ x ∈ (upsertKeep m k v).map Prod.fst, x ∈ m.map Prod.fst ∨ x = k := by
  induction m with
  | nil =>
    intro x hx
    simp only [upsertKeep, List.map_cons, List.map_nil, List.mem_singleton] at hx
    exact Or.inr hx
  | cons p rest ih =>
    intro x hx
    unfold upsertKeep at hx
    split_ifs at hx with h
    · simp only [List.map_cons, List.mem_cons] at hx ⊢
      rcases hx with hx | hx
      · exact Or.inl (Or.inl hx)
      · exact Or.inl (Or.inr hx)
    · simp only [List.map_cons, List.mem_cons] at hx ⊢
      rcases hx with hx | hx
      · exact Or.inl (Or.inl hx)
      · rcases ih x hx with h2 | h2
        · exact Or.inl (Or.inr h2)
        · exact Or.inr h2

theorem upsertKeep_keys_nodup (m : List (String × PubRow)) (k : String) (v : PubRow)
    (h : (m.map Prod.fst).Nodup) : ((upsertKeep m k v).map Prod.fst).Nodup := by
  induction m with
  | nil => simp [upsertKeep]
  | cons p rest ih =>
    unfold upsertKeep
    split_ifs with hk
    · simpa using h
    · simp only [List.map_cons, List.nodup_cons] at h ⊢
      refine ⟨?_, ih h.2⟩
      intro hx
      rcases upsertKeep_keys_sub rest k v p.1 hx with h2 | h2
      · exact h.1 h2
      · exact hk h2

theorem upsertKeep_values (m : List (String × PubRow)) (k : String) (v : PubRow)
    (P : String × PubRow → Prop) (hm : ∀ p ∈ m, P p) (hv : P (k, v)) :
    ∀ p ∈ upsertKeep m k v, P p := by
  induction m with
  | nil =>
    intro p hp
    simp only [upsertKeep, List.mem_singleton] at hp
    exact hp ▸ hv
  | cons q rest ih =>
    intro p hp
    unfold upsertKeep at hp
    split_ifs at hp with h
    · rcases List.mem_cons.mp hp with hp | hp
      · subst hp
        have : q.1 = k := h
        exact this ▸ hv
      · exact hm p (List.mem_cons_of_mem _ hp)
    · rcases List.mem_cons.mp hp with hp | hp
      · exact hp ▸ hm q (List.mem_cons_self _ _)
      · exact ih (fun x hx => hm x (List.mem_cons_of_mem _ hx)) p hp

theorem findRow_upsertKeep_self (m : List (String × PubRow)) (k : String) (v : PubRow) :
    findRow (upsertKeep m k v) k = some v := by
  induction m with
  | nil => simp [upsertKeep, findRow]
  | cons p rest ih =>
    unfold upsertKeep
    split_ifs with h
    · unfold findRow
      rw [if_pos h]
    · unfold findRow
      rw [if_neg h]
      exact ih

theorem findRow_upsertKeep_ne (m : List (String × PubRow)) (k k2 : String) (v : PubRow)
    (h : k2 ≠ k) : findRow (upsertKeep m k v) k2 = findRow m k2 := by
  induction m with
  | nil =>
    unfold upsertKeep findRow
    rw [if_neg (show ¬ (k = k2) from fun hk => h hk.symm)]
    rfl
  | cons p rest ih =>
    unfold upsertKeep
    split_ifs with hp
    · unfold findRow
      by_cases h2 : p.1 = k2
      · exact absurd (h2 ▸ hp) h
      · rw [if_neg h2, if_neg h2]
    · unfold findRow
      by_cases h2 : p.1 = k2
      · rw [if_pos h2, if_pos h2]
      · rw [if_neg h2, if_neg h2]
        exact ih

theorem findRow_mem (m : List (String × PubRow)) (p : String) (v : PubRow)
    (h : findRow m p = some v) : (p, v) ∈ m := by
  induction m with
  | nil => exact absurd h (by simp [findRow])
  | cons q rest ih =>
    unfold findRow at h
    split_ifs at h with hq
    · have hv := Option.some.inj h
      subst hv
      rw [← hq]
      exact List.mem_cons_self _ _
    · exact List.mem_cons_of_mem _ (ih h)

theorem mem_findRow (m : List (String × PubRow)) (k : String) (v : PubRow)
    (hkeys : (m.map Prod.fst).Nodup) (hmem : (k, v) ∈ m) :
    findRow m k = some v := by
  induction m with
  | nil => exact absurd hmem (List.not_mem_nil _)
  | cons q rest ih =>
    simp only [List.map_cons, List.nodup_cons] at hkeys
    rcases List.mem_cons.mp hmem with h | h
    · subst h
      unfold findRow
      rw [if_pos rfl]
    · unfold findRow
      by_cases hq : q.1 = k
      · exfalso
        apply hkeys.1
        rw [hq]
        exact List.mem_map.mpr ⟨(k, v), h, rfl⟩
      · rw [if_neg hq]
        exact ih hkeys.2 h

theorem dedupLegacy_nodup (path : String) (l : List String) :
    ∀ acc : List String, acc.Nodup → path ∉ acc →
      (dedupLegacy path l acc).Nodup ∧ path ∉ dedupLegacy path l acc := by
  induction l with
  | nil => intro acc h1 h2; exact ⟨h1, h2⟩
  | cons item rest ih =>
    intro acc h1 h2
    unfold dedupLegacy
    dsimp only
    split_ifs with h
    · apply ih
      · simp only [List.nodup_append, List.nodup_cons]
        refine ⟨h1, by simp, ?_⟩
        intro a ha hb
        simp only [List.mem_singleton] at hb
        exact h.2.1 (by simpa using (hb ▸ ha))
      · intro hmem
        rcases List.mem_append.mp hmem with hm | hm
        · exact h2 hm
        · exact h.2.2 (List.mem_singleton.mp hm).symm
    · exact ih acc h1 h2

/-! ## Fold lemmas for the two phases of the published merge (C1) -/

theorem loadFold_keys_nodup (rows : List PubRow) :
    ∀ m : List (String × PubRow), (m.map Prod.fst).Nodup →
      ((rows.foldl loadStep m).map Prod.fst).Nodup := by
  induction rows with
  | nil => intro m h; exact h
  | cons r rest ih =>
    intro m h
    apply ih
    unfold loadStep
    split_ifs
    · exact h
    · exact upsertKeep_keys_nodup m r.path r h

theorem loadFold_wf (rows : List PubRow) :
    ∀ m : List (String × PubRow), (∀ q ∈ m, q.2.path = q.1 ∧ q.1 ≠ "") →
      ∀ q ∈ rows.foldl loadStep m, q.2.path = q.1 ∧ q.1 ≠ "" := by
  induction rows with
  | nil => intro m h; exact h
  | cons r rest ih =>
    intro m h
    apply ih
    unfold loadStep
    split_ifs with hp
    · exact h
    · exact upsertKeep_values m r.path r _ h ⟨rfl, hp⟩

theorem loadFold_findRow (rows : List PubRow) :
    ∀ (m : List (String × PubRow)) (p : String), p ≠ "" →
      (((rows.filter (fun x => x.path = p)).getLast? = none →
        findRow (rows.foldl loadStep m) p = findRow m p) ∧
       (∀ r, (rows.filter (fun x => x.path = p)).getLast? = some r →
        findRow (rows.foldl loadStep m) p = some r)) := by
  induction rows with
  | nil =>
    intro m p _
    exact ⟨fun _ => rfl, fun r hr => absurd hr (by simp)⟩
  | cons r0 rest ih =>
    intro m p hp
    have hfold : (r0 :: rest).foldl loadStep m = rest.foldl loadStep (loadStep m r0) := rfl
    rw [hfold]
    rw [List.filter_cons]
    cases hfilter : (rest.filter (fun x => x.path = p)).getLast? with
    | some r1 =>
      have hne : rest.filter (fun x => x.path = p) ≠ [] := by
        intro hnil
        rw [hnil] at hfilter
        exact absurd hfilter (by simp)
      obtain ⟨f0, fs, hfs⟩ := List.exists_cons_of_ne_nil hne
      constructor
      · intro hnone
        exfalso
        split_ifs at hnone
        · rw [hfs] at hnone
          rw [List.getLast?_cons_cons] at hnone
          rw [← hfs, hfilter] at hnone
          exact absurd hnone (by simp)
        · rw [hfilter] at hnone
          exact absurd hnone (by simp)
      · intro r hr
        have hr1 : r = r1 := by
          split_ifs at hr
          · rw [hfs, List.getLast?_cons_cons, ← hfs, hfilter] at hr
            exact (Option.some.inj hr).symm
          · rw [hfilter] at hr
            exact (Option.some.inj hr).symm
        subst hr1
        exact (ih (loadStep m r0) p hp).2 r hfilter
    | none =>
      have hrest : rest.filter (fun x => x.path = p) = [] :=
        List.getLast?_eq_none_iff.mp hfilter
      by_cases hc : r0.path = p
      · rw [if_pos (by simpa using hc), hrest, List.getLast?_singleton]
        constructor
        · intro hnone
          exact absurd hnone (by simp)
        · intro r hr
          have hr0 : r0 = r := Option.some.inj hr
          subst hr0
          rw [(ih (loadStep m r0) p hp).1 hfilter]
          unfold loadStep
          rw [if_neg (by rw [hc]; exact hp)]
          rw [show r0.path = p from hc]
          exact findRow_upsertKeep_self m p r0
      · rw [if_neg (by simpa using hc), hrest]
        constructor
        · intro _
          rw [(ih (loadStep m r0) p hp).1 hfilter]
          unfold loadStep
          split_ifs
          · rfl
          · exact findRow_upsertKeep_ne m r0.path p r0 (fun h => hc h.symm)
        · intro r hr
          exact absurd hr (by simp)

theorem mergeFold_keys_nodup (rows : List PubRow) :
    ∀ m : List (String × PubRow), (m.map Prod.fst).Nodup →
      ((rows.foldl mergeNewRow m).map Prod.fst).Nodup := by
  induction rows with
  | nil => intro m h; exact h
  | cons r rest ih =>
    intro m h
    apply ih
    unfold mergeNewRow
    split_ifs
    · exact h
    · exact upsertKeep_keys_nodup m r.path _ h

theorem mergeFold_wf (rows : List PubRow) :
    ∀ m : List (String × PubRow), (∀ q ∈ m, q.2.path = q.1 ∧ q.1 ≠ "") →
      ∀ q ∈ rows.foldl mergeNewRow m, q.2.path = q.1 ∧ q.1 ≠ "" := by
  induction rows with
  | nil => intro m h; exact h
  | cons r rest ih =>
    intro m h
    apply ih
    unfold mergeNewRow
    split_ifs with hp
    · exact h
    · exact upsertKeep_values m r.path _ _ h ⟨rfl, hp⟩

theorem mergeFold_findRow (rows : List PubRow) :
    ∀ (m : List (String × PubRow)) (p : String), p ≠ "" →
      (((rows.filter (fun x => x.path = p)).getLast? = none →
        findRow (rows.foldl mergeNewRow m) p = findRow m p) ∧
       (∀ r, (rows.filter (fun x => x.path = p)).getLast? = some r →
        ∃ L, findRow (rows.foldl mergeNewRow m) p = some { r with legacyPaths := L } ∧
          L.Nodup ∧ p ∉ L)) := by
  induction rows with
  | nil =>
    intro m p _
    exact ⟨fun _ => rfl, fun r hr => absurd hr (by simp)⟩
  | cons r0 rest ih =>
    intro m p hp
    have hfold : (r0 :: rest).foldl mergeNewRow m = rest.foldl mergeNewRow (mergeNewRow m r0) := rfl
    rw [hfold]
    rw [List.filter_cons]
    cases hfilter : (rest.filter (fun x => x.path = p)).getLast? with
    | some r1 =>
      have hne : rest.filter (fun x => x.path = p) ≠ [] := by
        intro hnil
        rw [hnil] at hfilter
        exact absurd hfilter (by simp)
      obtain ⟨f0, fs, hfs⟩ := List.exists_cons_of_ne_nil hne
      constructor
      · intro hnone
        exfalso
        split_ifs at hnone
        · rw [hfs, List.getLast?_cons_cons, ← hfs, hfilter] at hnone
          exact absurd hnone (by simp)
        · rw [hfilter] at hnone
          exact absurd hnone (by simp)
      · intro r hr
        have hr1 : r = r1 := by
          split_ifs at hr
          · rw [hfs, List.getLast?_cons_cons, ← hfs, hfilter] at hr
            exact (Option.some.inj hr).symm
          · rw [hfilter] at hr
            exact (Option.some.inj hr).symm
        subst hr1
        exact (ih (mergeNewRow m r0) p hp).2 r hfilter
    | none =>
      have hrest : rest.filter (fun x => x.path = p) = [] :=
        List.getLast?_eq_none_iff.mp hfilter
      by_cases hc : r0.path = p
      · rw [if_pos (by simpa using hc), hrest, List.getLast?_singleton]
        constructor
        · intro hnone
          exact absurd hnone (by simp)
        · intro r hr
          have hr0 : r0 = r := Option.some.inj hr
          subst hr0
          rw [(ih (mergeNewRow m r0) p hp).1 hfilter]
          refine ⟨dedupLegacy r0.path
            ((((findRow m r0.path).map (fun q => q.legacyPaths)).getD []) ++ r0.legacyPaths) [],
            ?_, ?_, ?_⟩
          · unfold mergeNewRow
            rw [if_neg (by rw [hc]; exact hp)]
            rw [show r0.path = p from hc]
            exact findRow_upsertKeep_self m p _
          · exact (dedupLegacy_nodup r0.path _ [] (by simp) (by simp)).1
          · rw [← hc]
            exact (dedupLegacy_nodup r0.path _ [] (by simp) (by simp)).2
      · rw [if_neg (by simpa using hc), hrest]
        constructor
        · intro _
          rw [(ih (mergeNewRow m r0) p hp).1 hfilter]
          unfold mergeNewRow
          split_ifs
          · rfl
          · exact findRow_upsertKeep_ne m r0.path p _ (fun h => hc h.symm)
        · intro r hr
          exact absurd hr (by simp)

/-! ## C1: the published-history merge -/

theorem value_findRow (m : List (String × PubRow)) (hkeys : (m.map Prod.fst).Nodup)
    (hwf : ∀ q ∈ m, q.2.path = q.1 ∧ q.1 ≠ "") (v : PubRow)
    (hv : v ∈ m.map (fun p => p.2)) : findRow m v.path = some v := by
  obtain ⟨q, hq, hqe⟩ := List.mem_map.mp hv
  have h1 := (hwf q hq).1
  subst hqe
  rw [h1]
  exact mem_findRow m q.1 q.2 hkeys (by rw [show (q.1, q.2) = q from rfl]; exact hq)

theorem pubRowLe_trans : ∀ a b c : PubRow,
    decide (b.publishedAt ≤ a.publishedAt) = true →
    decide (c.publishedAt ≤ b.publishedAt) = true →
    decide (c.publishedAt ≤ a.publishedAt) = true := by
  intro a b c h1 h2
  simp only [decide_eq_true_iff] at *
  exact le_trans h2 h1

theorem pubRowLe_total : ∀ a b : PubRow,
    (decide (b.publishedAt ≤ a.publishedAt) || decide (a.publishedAt ≤ b.publishedAt)) = true := by
  intro a b
  simp only [Bool.or_eq_true, decide_eq_true_iff]
  exact le_total _ _

/-- Counterexample to C1: a row that only sits in the EXISTING list is
copied through `_merge_published_rows` verbatim — its stored `legacy_paths`
is neither deduplicated nor purged of the row's own current path, so the
claim's "each resulting row's legacy_paths list is deduplicated and never
contains that row's own current path" fails for carried-over rows. -/
theorem merge_published_rows_counterexample :
    merge_published_rows [rowSelfLegacy] [] = [rowSelfLegacy] ∧
    rowSelfLegacy.path ∈ rowSelfLegacy.legacyPaths ∧
    ¬ (rowSelfLegacy.legacyPaths.Nodup) := by
  refine ⟨?_, by decide, by decide⟩
  unfold merge_published_rows
  dsimp only
  rw [show (([] : List PubRow).foldl mergeNewRow (loadExisting [rowSelfLegacy])).map
    (fun p => p.2) = [rowSelfLegacy] from rfl]
  exact List.perm_singleton.mp (List.mergeSort_perm _ _)

/-- C1 (amended): `_merge_published_rows` produces at most one row per path
(the path list is duplicate-free, and empty-path rows are dropped), sorted
by `published_at` descending.  A row at a path touched by a new row agrees
with the LAST new row at that path on every field except `legacy_paths`,
and its rebuilt `legacy_paths` is deduplicated and never contains the
row's own current path.  A row at a path touched by no new row is the last
existing row at that path, carried over verbatim — including any stored
duplicates or self-references in its `legacy_paths`.  Every non-empty new
path is represented in the result. -/
theorem merge_published_rows_spec (existingRows newRows : List PubRow) :
    ((merge_published_rows existingRows newRows).map (fun r => r.path)).Nodup ∧
    (merge_published_rows existingRows newRows).Pairwise
      (fun a b => b.publishedAt ≤ a.publishedAt) ∧
    (∀ r ∈ merge_published_rows existingRows newRows, r.path ≠ "") ∧
    (∀ r ∈ merge_published_rows existingRows newRows, ∀ nr,
      (newRows.filter (fun x => x.path = r.path)).getLast? = some nr →
      (r.slug = nr.slug ∧ r.title = nr.title ∧ r.vertical = nr.vertical ∧
       r.publishedAt = nr.publishedAt ∧ r.path = nr.path ∧
       r.legacyPaths.Nodup ∧ r.path ∉ r.legacyPaths)) ∧
    (∀ r ∈ merge_published_rows existingRows newRows,
      (newRows.filter (fun x => x.path = r.path)).getLast? = none →
      (existingRows.filter (fun x => x.path = r.path)).getLast? = some r) ∧
    (∀ nr ∈ newRows, nr.path ≠ "" →
      ∃ r ∈ merge_published_rows existingRows newRows, r.path = nr.path) := by
  have hkeys1 : ((loadExisting existingRows).map Prod.fst).Nodup :=
    loadFold_keys_nodup existingRows [] (by simp)
  have hwf1 : ∀ q ∈ loadExisting existingRows, q.2.path = q.1 ∧ q.1 ≠ "" :=
    loadFold_wf existingRows [] (by simp)
  have hkeys2 : ((newRows.foldl mergeNewRow (loadExisting existingRows)).map Prod.fst).Nodup :=
    mergeFold_keys_nodup newRows (loadExisting existingRows) hkeys1
  have hwf2 : ∀ q ∈ newRows.foldl mergeNewRow (loadExisting existingRows),
      q.2.path = q.1 ∧ q.1 ≠ "" :=
    mergeFold_wf newRows (loadExisting existingRows) hwf1
  have hperm : (merge_published_rows existingRows newRows).Perm
      ((newRows.foldl mergeNewRow (loadExisting existingRows)).map (fun p => p.2)) := by
    unfold merge_published_rows
    exact List.mergeSort_perm _ _
  have hmemval : ∀ r, r ∈ merge_published_rows existingRows newRows ↔
      r ∈ (newRows.foldl mergeNewRow (loadExisting existingRows)).map (fun p => p.2) :=
    fun r => hperm.mem_iff
  have hfind : ∀ r ∈ merge_published_rows existingRows newRows,
      findRow (newRows.foldl mergeNewRow (loadExisting existingRows)) r.path = some r :=
    fun r hr => value_findRow _ hkeys2 hwf2 r ((hmemval r).mp hr)
  have hpath : ∀ r ∈ merge_published_rows existingRows newRows, r.path ≠ "" := by
    intro r hr
    obtain ⟨q, hq, hqe⟩ := List.mem_map.mp ((hmemval r).mp hr)
    have := hwf2 q hq
    rw [← hqe, this.1]
    exact this.2
  refine ⟨?_, ?_, hpath, ?_, ?_, ?_⟩
  · have hvp : ((newRows.foldl mergeNewRow (loadExisting existingRows)).map
        (fun p => p.2)).map (fun r => r.path) =
        (newRows.foldl mergeNewRow (loadExisting existingRows)).map Prod.fst := by
      rw [List.map_map]
      apply List.map_congr_left
      intro q hq
      exact (hwf2 q hq).1
    have hnd : (((newRows.foldl mergeNewRow (loadExisting existingRows)).map
        (fun p => p.2)).map (fun r => r.path)).Nodup := by
      rw [hvp]
      exact hkeys2
    exact ((hperm.map (fun r => r.path)).symm.nodup) hnd
  · unfold merge_published_rows
    have hs := @List.sorted_mergeSort PubRow
      (fun a b => decide (b.publishedAt ≤ a.publishedAt)) pubRowLe_trans pubRowLe_total
      ((newRows.foldl mergeNewRow (loadExisting existingRows)).map (fun p => p.2))
    exact hs.imp (fun h => decide_eq_true_iff.mp h)
  · intro r hr nr hnr
    obtain ⟨L, hL, hLnodup, hLnot⟩ :=
      (mergeFold_findRow newRows (loadExisting existingRows) r.path (hpath r hr)).2 nr hnr
    have heq : r = { nr with legacyPaths := L } := by
      have := hfind r hr
      rw [hL] at this
      exact (Option.some.inj this).symm
    refine ⟨?_, ?_, ?_, ?_, ?_, ?_, ?_⟩
    · rw [heq]
    · rw [heq]
    · rw [heq]
    · rw [heq]
    · rw [heq]
    · rw [show r.legacyPaths = L by rw [heq]]
      exact hLnodup
    · rw [show r.legacyPaths = L by rw [heq]]
      exact hLnot
  · intro r hr hnone
    have h1 : findRow (loadExisting existingRows) r.path = some r := by
      rw [← (mergeFold_findRow newRows (loadExisting existingRows) r.path (hpath r hr)).1 hnone]
      exact hfind r hr
    cases hex : (existingRows.filter (fun x => x.path = r.path)).getLast? with
    | none =>
      exfalso
      have h2 : findRow (existingRows.foldl loadStep []) r.path = findRow [] r.path :=
        (loadFold_findRow existingRows [] r.path (hpath r hr)).1 hex
      have h1b : findRow (existingRows.foldl loadStep []) r.path = some r := h1
      rw [h2] at h1b
      exact absurd h1b (by simp [findRow])
    | some r2 =>
      have h2 : findRow (existingRows.foldl loadStep []) r.path = some r2 :=
        (loadFold_findRow existingRows [] r.path (hpath r hr)).2 r2 hex
      have h1b : findRow (existingRows.foldl loadStep []) r.path = some r := h1
      rw [h2] at h1b
      rw [← Option.some.inj h1b]
  · intro nr hnr hp
    have hmf : nr ∈ newRows.filter (fun x => x.path = nr.path) :=
      List.mem_filter.mpr ⟨hnr, by simp⟩
    have hne : newRows.filter (fun x => x.path = nr.path) ≠ [] :=
      List.ne_nil_of_mem hmf
    cases hlast : (newRows.filter (fun x => x.path = nr.path)).getLast? with
    | none => exact absurd (List.getLast?_eq_none_iff.mp hlast) hne
    | some r1 =>
      obtain ⟨L, hL, _, _⟩ :=
        (mergeFold_findRow newRows (loadExisting existingRows) nr.path hp).2 r1 hlast
      have hmem := findRow_mem _ _ _ hL
      have hval : ({ r1 with legacyPaths := L } : PubRow) ∈
          (newRows.foldl mergeNewRow (loadExisting existingRows)).map (fun p => p.2) :=
        List.mem_map.mpr ⟨(nr.path, { r1 with legacyPaths := L }), hmem, rfl⟩
      refine ⟨{ r1 with legacyPaths := L }, (hmemval _).mpr hval, ?_⟩
      have hr1mem : r1 ∈ newRows.filter (fun x => x.path = nr.path) := by
        obtain ⟨hne2, heq2⟩ :=
          List.mem_getLast?_eq_getLast (Option.mem_def.mpr hlast)
        rw [heq2]
        exact List.getLast_mem hne2
      have hr1 : r1.path = nr.path := by
        have := List.mem_filter.mp hr1mem
        simpa using this.2
      exact hr1

/-- Witness for C1 (amended): a single new row's path is represented in the
merge result. -/
theorem merge_published_rows_spec_witness :
    rowNew ∈ [rowNew] ∧ rowNew.path ≠ "" ∧
    ∃ r ∈ merge_published_rows [] [rowNew], r.path = rowNew.path :=
  ⟨List.mem_singleton.mpr rfl, by decide,
   (merge_published_rows_spec [] [rowNew]).2.2.2.2.2 rowNew
     (List.mem_singleton.mpr rfl) (by decide)⟩

end SignalAtlas
